import Mathlib

/-!
The library agenda.h : a generic dynamic array in C.

A shallow embedding of `src/agenda.h` (v1.0.1).  One dynamic array is one heap
block: an `Agenda_Header` immediately followed by the payload bytes.  The
caller holds an `Agenda` (a `void*` to the first payload byte, or `NULL`) and
passes `Agenda *items` to every operation.

* `harden` tells whether the build defines `AGENDA_HARDEN_WITH_MAGIC`.
* `size_t` is a 64-bit unsigned integer: every `size_t` computation of the
  source is written with an explicit `% SIZE_T_MOD`.
* `malloc` / `realloc` are parameters (`Allocator`): for a request of `n` bytes
  they answer `none` (the call returned `NULL`) or give the address of the new
  block together with the bytes found in its uninitialised part.
* a C operation that reads through a null pointer, divides by zero, or never
  leaves its loop yields a `Fault`.
* a `memcpy` that runs past the end of the allocation is the fault
  `heap_overrun`: the C program has no defined state after it.
* the `while` loop of `agenda__realloc_many` runs on a `fuel` budget.
-/

namespace AgendaH

/-- One `unsigned char`. -/
abbrev Byte := Nat

/-- Number of values of a `size_t` (LP64). -/
def SIZE_T_MOD : Nat := 2 ^ 64

/-- Macro `AGENDA_INITIAL_CAPACITY_IN_BYTES`, by default 256. -/
def AGENDA_INITIAL_CAPACITY_IN_BYTES : Nat := 256

/-- Macro `AGENDA_SCALE_FACTOR`, by default 2. -/
def AGENDA_SCALE_FACTOR : Nat := 2

/-- Macro `AGENDA_MAGIC_NUMBER`, `0x4144`. -/
def AGENDA_MAGIC_NUMBER : Nat := 0x4144

/-- The struct `Agenda_Header`.  `magic` exists only in a build with
`AGENDA_HARDEN_WITH_MAGIC`; a build without it never reads the field. -/
structure Agenda_Header where
  magic : Nat
  item_size : Nat
  size : Nat
  capacity : Nat
deriving DecidableEq, Repr

/-- One heap block of the library: where it lives, its header, and the payload
bytes that were really allocated after the header. -/
structure Block where
  addr : Nat
  da : Agenda_Header
  payload : List Byte
deriving DecidableEq, Repr

/-- The type `Agenda` (`void*`): `none` is `NULL`. -/
abbrev Agenda := Option Block

/-- Ways in which a call does not return. -/
inductive Fault where
  | null_deref
  | div_by_zero
  | no_return
  | heap_overrun
deriving DecidableEq, Repr

/-- What a successful `malloc`/`realloc` hands back: the address of the block
and the content of the bytes the library has not written yet. -/
structure Fresh where
  addr : Nat
  junk : Nat → Byte

/-- The allocator seen from one call site: request size in bytes to result. -/
abbrev Allocator := Nat → Option Fresh

/-- Result of an operation: the C return value and the caller's `*items`
afterwards (`items` itself is `none` when the caller passed `NULL`). -/
abbrev Outcome (α : Type) := Except Fault (α × Option Agenda)

/-- The value of `sizeof(Agenda_Header)` on LP64: three `size_t`, preceded by the
padded `uint16_t magic` in a hardened build. -/
def sizeof_Agenda_Header (harden : Bool) : Nat := if harden then 32 else 24

/-- The block `malloc(n)` returns. -/
def malloc_block (harden : Bool) (malloc : Allocator) (n : Nat) (da : Agenda_Header) :
    Option Block :=
  match malloc n with
  | none => none
  | some f =>
    some { addr := f.addr, da := da,
           payload := (List.range (n - sizeof_Agenda_Header harden)).map f.junk }

/-- The block `realloc(b, n)` returns: the header and the old payload bytes are
kept up to the new length, the rest is uninitialised.  A request smaller than
the header, which only a wrapped size computation makes, gives an empty payload. -/
def realloc_block (harden : Bool) (realloc : Allocator) (b : Block) (n : Nat) :
    Option Block :=
  match realloc n with
  | none => none
  | some f =>
    some { addr := f.addr, da := b.da,
           payload := (List.range (n - sizeof_Agenda_Header harden)).map
             (fun i => b.payload.getD i (f.junk i)) }

/-- Whether `memcpy(&payload[off], src, n)` writes past the end of the allocation. -/
def memcpy_overruns (payload : List Byte) (off n : Nat) : Bool :=
  decide (0 < n ∧ payload.length < off + n)

/-- The call `memcpy(&payload[off], src, n)` on the payload of a block: a copy
that stays inside the allocation gives the payload with the `n` bytes written;
a copy that runs past the end of the allocation is a heap overrun. -/
def memcpy (payload : List Byte) (off n : Nat) (src : Nat → Byte) :
    Except Fault (List Byte) :=
  if memcpy_overruns payload off n then .error .heap_overrun
  else .ok (payload.take off ++ (List.range n).map src ++ payload.drop (off + n))

/-- Function `agenda_get_header_`: `none` is the `NULL` result. -/
def agenda_get_header_ (harden : Bool) (items : Option Agenda) : Option Block :=
  match items with
  | none => none
  | some none => none
  | some (some b) =>
    if harden && (b.da.magic != AGENDA_MAGIC_NUMBER) then none else some b

/-- The guard `if (agenda_get_header(items)->magic != AGENDA_MAGIC_NUMBER) return ...;`
of a hardened build: `ok true` when execution goes on, `ok false` when the early
return is taken, a fault when `agenda_get_header` gave `NULL`. -/
def magic_guard (harden : Bool) (items : Option Agenda) : Except Fault Bool :=
  if harden then
    match agenda_get_header_ harden items with
    | none => .error .null_deref
    | some da => .ok (da.da.magic == AGENDA_MAGIC_NUMBER)
  else .ok true

/-- The `while` loop of `agenda__realloc_many`; `none` when the fuel runs out. -/
def agenda__realloc_many_loop : Nat → Nat → Nat → Option Nat
  | 0, required, capacity => if required > capacity then none else some capacity
  | fuel + 1, required, capacity =>
    if required > capacity then
      agenda__realloc_many_loop fuel required
        ((if capacity > 0 then capacity else 1) * AGENDA_SCALE_FACTOR % SIZE_T_MOD)
    else some capacity

/-- Function `agenda__realloc_many`. -/
def agenda__realloc_many (harden : Bool) (fuel : Nat) (realloc : Allocator)
    (items : Option Agenda) (number_of_new_items : Nat) : Outcome Bool :=
  match agenda_get_header_ harden items with
  | none => .error .null_deref
  | some da =>
    let required_capacity_for_alloc :=
      (da.da.size + (da.da.item_size * number_of_new_items) % SIZE_T_MOD) % SIZE_T_MOD
    if required_capacity_for_alloc > da.da.capacity then
      match agenda__realloc_many_loop fuel required_capacity_for_alloc da.da.capacity with
      | none => .error .no_return
      | some capacity =>
        let da1 : Block := { da with da := { da.da with capacity := capacity } }
        match realloc_block harden realloc da1
            ((sizeof_Agenda_Header harden + capacity) % SIZE_T_MOD) with
        | none => .ok (false, some (some da1))
        | some new_da => .ok (true, some (some new_da))
    else .ok (true, items)

/-- Function `agenda_items_count_`. -/
def agenda_items_count_ (harden : Bool) (items : Option Agenda) : Except Fault Nat :=
  match items with
  | none => .ok 0
  | some none => .ok 0
  | some (some _) =>
    match magic_guard harden items with
    | .error e => .error e
    | .ok false => .ok 0
    | .ok true =>
      match agenda_get_header_ harden items with
      | none => .error .null_deref
      | some da =>
        if da.da.item_size = 0 then .error .div_by_zero
        else .ok (da.da.size / da.da.item_size)

/-- Function `agenda_reset_`.  Its first test is `items != NULL || *items == NULL`: the
left operand holds for every non-null `items`, and the right operand, evaluated
only when `items` is null, reads `*items`. -/
def agenda_reset_ (harden : Bool) (items : Option Agenda) : Outcome Bool :=
  if items.isSome then .ok (false, items)
  else
    match items with
    | none => .error .null_deref
    | some none => .ok (false, items)
    | some (some _) =>
      match magic_guard harden items with
      | .error e => .error e
      | .ok false => .ok (false, items)
      | .ok true =>
        match agenda_get_header_ harden items with
        | none => .error .null_deref
        | some da => .ok (true, some (some { da with da := { da.da with size := 0 } }))

/-- Function `agenda_init_`. -/
def agenda_init_ (harden : Bool) (malloc : Allocator) (item_size : Nat) : Agenda :=
  if item_size = 0 then none
  else
    malloc_block harden malloc
      (sizeof_Agenda_Header harden + AGENDA_INITIAL_CAPACITY_IN_BYTES)
      { magic := if harden then AGENDA_MAGIC_NUMBER else 0,
        item_size := item_size, size := 0,
        capacity := AGENDA_INITIAL_CAPACITY_IN_BYTES }

/-- Function `agenda_deinit_`. -/
def agenda_deinit_ (harden : Bool) (items : Option Agenda) : Outcome Bool :=
  match items with
  | none => .error .null_deref
  | some none => .ok (false, items)
  | some (some _) =>
    match magic_guard harden items with
    | .error e => .error e
    | .ok false => .ok (false, items)
    | .ok true => .ok (true, some none)

/-- The last two statements of `agenda_push_back_` and `agenda_push_back_array_`
on the header `da` read after the growth step: the `memcpy` of `n` bytes to
`&payload[da->size]` and `da->size += n`. -/
def push_copy (da : Block) (src : Nat → Byte) (n : Nat) : Except Fault Block :=
  match memcpy da.payload da.da.size n src with
  | .error e => .error e
  | .ok payload =>
    .ok { da with
          payload := payload,
          da := { da.da with size := (da.da.size + n) % SIZE_T_MOD } }

/-- Function `agenda_push_back_`. -/
def agenda_push_back_ (harden : Bool) (fuel : Nat) (realloc : Allocator)
    (items : Option Agenda) (item : Nat → Byte) : Outcome Bool :=
  match items with
  | none => .error .null_deref
  | some none => .ok (false, items)
  | some (some _) =>
    match magic_guard harden items with
    | .error e => .error e
    | .ok false => .ok (false, items)
    | .ok true =>
      match agenda__realloc_many harden fuel realloc items 1 with
      | .error e => .error e
      | .ok (_, items1) =>
        match agenda_get_header_ harden items1 with
        | none => .error .null_deref
        | some da =>
          match push_copy da item da.da.item_size with
          | .error e => .error e
          | .ok da1 => .ok (true, some (some da1))

/-- Function `agenda_push_back_array_`. -/
def agenda_push_back_array_ (harden : Bool) (fuel : Nat) (realloc : Allocator)
    (items : Option Agenda) (arr : Nat → Byte) (arr_len : Nat) : Outcome Bool :=
  match items with
  | none => .error .null_deref
  | some none => .ok (false, items)
  | some (some _) =>
    if arr_len = 0 then .ok (false, items)
    else
      match magic_guard harden items with
      | .error e => .error e
      | .ok false => .ok (false, items)
      | .ok true =>
        match agenda__realloc_many harden fuel realloc items arr_len with
        | .error e => .error e
        | .ok (_, items1) =>
          match agenda_get_header_ harden items1 with
          | none => .error .null_deref
          | some da =>
            match push_copy da arr ((da.da.item_size * arr_len) % SIZE_T_MOD) with
            | .error e => .error e
            | .ok da1 => .ok (true, some (some da1))

/-- Function `agenda_pop_back_`. -/
def agenda_pop_back_ (harden : Bool) (items : Option Agenda) : Outcome Bool :=
  match items with
  | none => .ok (false, items)
  | some none => .ok (false, items)
  | some (some _) =>
    match magic_guard harden items with
    | .error e => .error e
    | .ok false => .ok (false, items)
    | .ok true =>
      match agenda_get_header_ harden items with
      | none => .error .null_deref
      | some da =>
        if da.da.size ≥ da.da.item_size then
          .ok (true, some (some
            { da with da := { da.da with size := da.da.size - da.da.item_size } }))
        else .ok (false, items)

/-- Function `agenda_shrink_to_fit_`. -/
def agenda_shrink_to_fit_ (harden : Bool) (realloc : Allocator) (items : Option Agenda) :
    Outcome Bool :=
  match items with
  | none => .ok (false, items)
  | some none => .ok (false, items)
  | some (some _) =>
    match magic_guard harden items with
    | .error e => .error e
    | .ok false => .ok (false, items)
    | .ok true =>
      match agenda_get_header_ harden items with
      | none => .error .null_deref
      | some da =>
        match realloc_block harden realloc da
            ((sizeof_Agenda_Header harden + da.da.size) % SIZE_T_MOD) with
        | none => .ok (false, items)
        | some new_da =>
          .ok (true, some (some
            { new_da with da := { new_da.da with capacity := new_da.da.size } }))

/-- One call of the library on the caller's array, as `main` of
`example/example.c` makes them. -/
inductive Op where
  | push_back (realloc : Allocator) (item : Nat → Byte)
  | push_back_array (realloc : Allocator) (arr : Nat → Byte) (arr_len : Nat)
  | pop_back
  | reset
  | shrink_to_fit (realloc : Allocator)

/-- Performs one call. -/
def Op.call (harden : Bool) (fuel : Nat) (items : Option Agenda) : Op → Outcome Bool
  | .push_back realloc item => agenda_push_back_ harden fuel realloc items item
  | .push_back_array realloc arr arr_len =>
    agenda_push_back_array_ harden fuel realloc items arr arr_len
  | .pop_back => agenda_pop_back_ harden items
  | .reset => agenda_reset_ harden items
  | .shrink_to_fit realloc => agenda_shrink_to_fit_ harden realloc items

/-- Performs the calls in order on the same `items`; gives the return values
and the final `*items`. -/
def run (harden : Bool) (fuel : Nat) :
    Option Agenda → List Op → Except Fault (List Bool × Option Agenda)
  | items, [] => .ok ([], items)
  | items, op :: ops =>
    match op.call harden fuel items with
    | .error e => .error e
    | .ok (r, items1) =>
      match run harden fuel items1 ops with
      | .error e => .error e
      | .ok (rs, items2) => .ok (r :: rs, items2)

/-! ## Vocabulary of the statements -/

/-- A block is live for a build when its tag is the magic number (always, in a
build without the guard). -/
def Live (harden : Bool) (b : Block) : Prop :=
  harden = true → b.da.magic = AGENDA_MAGIC_NUMBER

/-- The header tells the truth about the allocation: `capacity` payload bytes
are allocated and the `size` bytes in use lie inside them. -/
def WellAllocated (b : Block) : Prop :=
  b.payload.length = b.da.capacity ∧ b.da.size ≤ b.da.capacity

/-- The capacity after `k` rounds of the growth loop without wrap-around: each
round multiplies by `AGENDA_SCALE_FACTOR`, a capacity of `0` counting as `1`. -/
def doubled (c k : Nat) : Nat :=
  if k = 0 then c else (if c > 0 then c else 1) * AGENDA_SCALE_FACTOR ^ k

/-- The `while` loop of `agenda__realloc_many` over the natural numbers, where no
product wraps: it is total by well-founded recursion on the gap between the
required size and the capacity. -/
def agenda__realloc_many_loop_unbounded (required capacity : Nat) : Nat :=
  if required > capacity then
    agenda__realloc_many_loop_unbounded required
      ((if capacity > 0 then capacity else 1) * AGENDA_SCALE_FACTOR)
  else capacity
termination_by required - capacity
decreasing_by
  simp only [AGENDA_SCALE_FACTOR]
  split <;> omega

/-- The capacity `c1` is what geometric growth by the scale factor makes of the
capacity `c` for a required size `r`: never less than `c`, equal to `c` when `r`
fits, otherwise `c * 2 ^ k` for the least `k ≥ 1` with `r ≤ c * 2 ^ k`. -/
def GeometricGrowth (c r c1 : Nat) : Prop :=
  c ≤ c1 ∧ (r ≤ c → c1 = c) ∧
  (c < r → ∃ k, 1 ≤ k ∧ c1 = c * AGENDA_SCALE_FACTOR ^ k ∧ r ≤ c * AGENDA_SCALE_FACTOR ^ k ∧
    ∀ j, 1 ≤ j → r ≤ c * AGENDA_SCALE_FACTOR ^ j → k ≤ j)

/-- The memory found at a pointer to a buffer that holds the bytes `e`. -/
def bytes_at (e : List Byte) : Nat → Byte := fun j => e.getD j 0

/-- The first `n` bytes found at the pointer `src`. -/
def read_bytes (src : Nat → Byte) (n : Nat) : List Byte := (List.range n).map src

/-- The pointer `src + off`. -/
def offset_ptr (src : Nat → Byte) (off : Nat) : Nat → Byte := fun j => src (off + j)


/-- The calls `agenda_push_back_(items, arr + i * item_size)` for
`i = 0, ..., arr_len - 1`, in order: the items of `arr` appended one by one. -/
def push_back_each (harden : Bool) (fuel : Nat) (reallocs : Nat → Allocator)
    (items : Option Agenda) (arr : Nat → Byte) (item_size arr_len : Nat) :
    Except Fault (List Bool × Option Agenda) :=
  run harden fuel items
    ((List.range arr_len).map
      (fun i => Op.push_back (reallocs i) (offset_ptr arr (i * item_size))))

/-- The required size of a push of `n` items on `b` fits a `size_t`: neither
`item_size * n` nor `size + item_size * n` wraps.  A push of one item is the
case `n = 1`; the other operations compute no sum. -/
def Op.no_wrap (b : Block) : Op → Prop
  | .push_back _ _ => b.da.size + b.da.item_size * 1 < SIZE_T_MOD
  | .push_back_array _ _ arr_len => b.da.size + b.da.item_size * arr_len < SIZE_T_MOD
  | .pop_back => True
  | .reset => True
  | .shrink_to_fit _ => True

/-- No push of the run `run harden fuel items ops` wraps its required size. -/
def run_no_wrap (harden : Bool) (fuel : Nat) : Option Agenda → List Op → Prop
  | _, [] => True
  | items, op :: ops =>
    (∀ b, items = some (some b) → op.no_wrap b) ∧
    (∀ r items1, op.call harden fuel items = .ok (r, items1) →
      run_no_wrap harden fuel items1 ops)

/-- One call of the library after `agenda_init_`: the five calls of `Op`, the
destruction, the two queries, and the growth step called on its own. -/
inductive Call where
  | op (o : Op)
  | deinit
  | items_count
  | get_header
  | realloc_many (realloc : Allocator) (number_of_new_items : Nat)

/-- Performs one call and gives the caller's `*items` afterwards; the return
value is dropped. -/
def Call.exec (harden : Bool) (fuel : Nat) (items : Option Agenda) :
    Call → Except Fault (Option Agenda)
  | .op o =>
    match o.call harden fuel items with
    | .error e => .error e
    | .ok (_, items1) => .ok items1
  | .deinit =>
    match agenda_deinit_ harden items with
    | .error e => .error e
    | .ok (_, items1) => .ok items1
  | .items_count =>
    match agenda_items_count_ harden items with
    | .error e => .error e
    | .ok _ => .ok items
  | .get_header =>
    match agenda_get_header_ harden items with
    | _ => .ok items
  | .realloc_many realloc number_of_new_items =>
    match agenda__realloc_many harden fuel realloc items number_of_new_items with
    | .error e => .error e
    | .ok (_, items1) => .ok items1

/-- Performs the calls in order on the same `items`. -/
def exec_all (harden : Bool) (fuel : Nat) :
    Option Agenda → List Call → Except Fault (Option Agenda)
  | items, [] => .ok items
  | items, c :: cs =>
    match c.exec harden fuel items with
    | .error e => .error e
    | .ok items1 => exec_all harden fuel items1 cs

/-! ## Sample inputs -/

/-- An allocator that always succeeds, at address `4096`, with zeroed fresh bytes. -/
def sample_allocator : Allocator := fun _ => some { addr := 4096, junk := fun _ => 0 }

/-- A pointer to a buffer filled with the byte `v`. -/
def sample_item (v : Byte) : Nat → Byte := fun _ => v

/-- An allocator that always fails. -/
def failing_allocator : Allocator := fun _ => none

/-- A hardened live block: three two-byte items in an allocation of eight bytes. -/
def sample_block : Block :=
  { addr := 4096,
    da := { magic := AGENDA_MAGIC_NUMBER, item_size := 2, size := 6, capacity := 8 },
    payload := [1, 2, 3, 4, 5, 6, 7, 8] }

/-- A hardened live block as `agenda_shrink_to_fit_` leaves an empty array:
nothing in use, nothing reserved. -/
def empty_block : Block :=
  { addr := 4096,
    da := { magic := AGENDA_MAGIC_NUMBER, item_size := 2, size := 0, capacity := 0 },
    payload := [] }

/-- The block `sample_block` with a corrupted tag. -/
def corrupted_block : Block :=
  { sample_block with da := { sample_block.da with magic := 0 } }

/-! ## The growth loop -/

theorem doubled_zero (c : Nat) : doubled c 0 = c := by simp [doubled]

theorem doubled_pos (c k : Nat) (hk : 0 < k) : 0 < doubled c k := by
  have hk0 : k ≠ 0 := Nat.pos_iff_ne_zero.mp hk
  simp only [doubled, hk0, if_false, AGENDA_SCALE_FACTOR]
  split <;> positivity

theorem doubled_of_pos (c k : Nat) (hc : 0 < c) : doubled c k = c * 2 ^ k := by
  unfold doubled AGENDA_SCALE_FACTOR
  by_cases hk : k = 0
  · simp [hk]
  · simp [hk, hc]

theorem doubled_succ (c k : Nat) : doubled c (k + 1) = doubled (doubled c 1) k := by
  have h1 : 0 < doubled c 1 := doubled_pos c 1 Nat.one_pos
  rw [doubled_of_pos _ k h1]
  simp only [doubled, AGENDA_SCALE_FACTOR, Nat.succ_ne_zero, if_false, one_ne_zero, pow_one]
  rw [pow_succ]; ring

theorem doubled_add (c j k : Nat) : doubled c (j + k) = doubled (doubled c j) k := by
  induction j generalizing c with
  | zero => simp [doubled_zero]
  | succ j ih =>
    rw [show j + 1 + k = (j + k) + 1 by omega, doubled_succ, ih, ← doubled_succ]

theorem doubled_lt_succ (c k : Nat) : doubled c k < doubled c (k + 1) := by
  induction k generalizing c with
  | zero =>
    simp only [doubled_zero]
    simp only [doubled, AGENDA_SCALE_FACTOR, one_ne_zero, if_false, pow_one, zero_add]
    split <;> omega
  | succ k ih =>
    rw [doubled_succ c k, doubled_succ c (k + 1)]
    exact ih _

theorem doubled_mono (c : Nat) {j k : Nat} (h : j ≤ k) : doubled c j ≤ doubled c k := by
  induction k with
  | zero =>
    have : j = 0 := by omega
    subst this; exact le_refl _
  | succ k ih =>
    rcases Nat.lt_or_ge j (k + 1) with hlt | hge
    · exact le_trans (ih (by omega)) (le_of_lt (doubled_lt_succ c k))
    · have : j = k + 1 := by omega
      subst this; exact le_refl _

theorem doubled_one_eq (c : Nat) :
    doubled c 1 = (if c > 0 then c else 1) * AGENDA_SCALE_FACTOR := by
  simp [doubled]

/-- The loop, started with enough fuel below a capacity that fits a `size_t`,
stops at the first capacity of the doubling chain that holds `required`. -/
theorem realloc_many_loop_spec (K : Nat) :
    ∀ (fuel required capacity : Nat), K ≤ fuel → required ≤ doubled capacity K →
      doubled capacity K < SIZE_T_MOD →
      ∃ k, k ≤ K ∧
        agenda__realloc_many_loop fuel required capacity = some (doubled capacity k) ∧
        required ≤ doubled capacity k ∧ ∀ j, j < k → doubled capacity j < required := by
  induction K with
  | zero =>
    intro fuel required capacity _ hreq _
    rw [doubled_zero] at hreq
    refine ⟨0, le_refl _, ?_, by simpa [doubled_zero] using hreq, by intro j hj; omega⟩
    cases fuel <;> simp [agenda__realloc_many_loop, doubled_zero, Nat.not_lt.mpr hreq]
  | succ K ih =>
    intro fuel required capacity hfuel hreq hfit
    by_cases hle : required ≤ capacity
    · refine ⟨0, Nat.zero_le _, ?_, by simpa [doubled_zero] using hle, by intro j hj; omega⟩
      cases fuel <;> simp [agenda__realloc_many_loop, doubled_zero, Nat.not_lt.mpr hle]
    · obtain ⟨f, rfl⟩ : ∃ f, fuel = f + 1 := ⟨fuel - 1, by omega⟩
      have hstep : (if capacity > 0 then capacity else 1) * AGENDA_SCALE_FACTOR % SIZE_T_MOD
          = doubled capacity 1 := by
        rw [← doubled_one_eq]
        apply Nat.mod_eq_of_lt
        exact lt_of_le_of_lt (doubled_mono capacity (by omega)) hfit
      rw [doubled_succ] at hreq hfit
      obtain ⟨k, hk, hrun, hge, hmin⟩ := ih f required (doubled capacity 1) (by omega) hreq hfit
      refine ⟨k + 1, by omega, ?_, ?_, ?_⟩
      · rw [agenda__realloc_many_loop, if_pos (by omega), hstep, hrun, doubled_succ capacity k]
      · rw [doubled_succ capacity k]; exact hge
      · intro j hj
        cases j with
        | zero => rw [doubled_zero]; omega
        | succ j => rw [doubled_succ capacity j]; exact hmin j (by omega)


/-! ## Headers, buffers and the growth step -/

theorem get_header_live (harden : Bool) (b : Block) (h : Live harden b) :
    agenda_get_header_ harden (some (some b)) = some b := by
  unfold Live at h
  cases harden <;> simp_all [agenda_get_header_]

theorem magic_guard_live (harden : Bool) (b : Block) (h : Live harden b) :
    magic_guard harden (some (some b)) = .ok true := by
  unfold magic_guard
  rw [get_header_live harden b h]
  unfold Live at h
  cases harden <;> simp_all

theorem take_resize (l : List Byte) (g : Nat → Byte) (m k : Nat) (hkm : k ≤ m)
    (hkl : k ≤ l.length) :
    ((List.range m).map (fun i => l.getD i (g i))).take k = l.take k := by
  apply List.ext_getElem
  · simp [Nat.min_eq_left hkm, Nat.min_eq_left hkl]
  · intro i h1 h2
    simp at h1 h2
    simp [List.getElem_take, List.getD_eq_getElem?_getD]
    rw [List.getElem?_eq_getElem (by omega)]
    simp

/-- A copy that stays inside the allocation succeeds: the block keeps its
address and length, `size` grows by `n` modulo `2 ^ 64`, and the `n` bytes follow
the `size` bytes that were in use. -/
theorem push_copy_in_bounds (da : Block) (src : Nat → Byte) (n : Nat)
    (h : da.da.size + n ≤ da.payload.length) :
    ∃ b1, push_copy da src n = .ok b1 ∧ b1.addr = da.addr ∧
      b1.da = { da.da with size := (da.da.size + n) % SIZE_T_MOD } ∧
      b1.payload.length = da.payload.length ∧
      b1.payload.take (da.da.size + n) = da.payload.take da.da.size ++ read_bytes src n := by
  have hno : memcpy_overruns da.payload da.da.size n = false := by
    simp only [memcpy_overruns, decide_eq_false_iff_not]
    omega
  have hrun : push_copy da src n = .ok
      { da with
        payload := da.payload.take da.da.size ++ (List.range n).map src
          ++ da.payload.drop (da.da.size + n),
        da := { da.da with size := (da.da.size + n) % SIZE_T_MOD } } := by
    simp [push_copy, memcpy, hno]
  refine ⟨_, hrun, rfl, rfl, ?_, ?_⟩
  · simp only [List.length_append, List.length_take, List.length_map, List.length_range,
      List.length_drop]
    omega
  · have hl : (List.take da.da.size da.payload ++ List.map src (List.range n)).length
        = da.da.size + n := by
      simp; omega
    simp only [read_bytes]
    rw [List.take_append_of_le_length (by omega), List.take_of_length_le (by omega)]

/-- A copy that returns stayed inside the allocation and changed only the
payload bytes and `size`. -/
theorem push_copy_ok (da : Block) (src : Nat → Byte) (n : Nat) (b1 : Block)
    (h : push_copy da src n = .ok b1) :
    b1.addr = da.addr ∧ b1.da = { da.da with size := (da.da.size + n) % SIZE_T_MOD } ∧
      memcpy_overruns da.payload da.da.size n = false := by
  unfold push_copy memcpy at h
  cases ho : memcpy_overruns da.payload da.da.size n with
  | true => rw [ho] at h; simp at h
  | false =>
    rw [ho] at h
    simp only [Bool.false_eq_true, if_false, Except.ok.injEq] at h
    subst h
    exact ⟨rfl, rfl, rfl⟩

/-- A copy that runs past the end of the allocation is a heap overrun. -/
theorem push_copy_overrun (da : Block) (src : Nat → Byte) (n : Nat)
    (h : memcpy_overruns da.payload da.da.size n = true) :
    push_copy da src n = .error .heap_overrun := by
  simp only [push_copy, memcpy, h, if_true]

/-- The copy is a heap overrun or it returns a block that differs in the payload
bytes and `size` only. -/
theorem push_copy_cases (da : Block) (src : Nat → Byte) (n : Nat) :
    push_copy da src n = .error .heap_overrun ∨
      ∃ b1, push_copy da src n = .ok b1 ∧ b1.addr = da.addr ∧
        b1.da = { da.da with size := (da.da.size + n) % SIZE_T_MOD } := by
  cases ho : memcpy_overruns da.payload da.da.size n with
  | true => exact Or.inl (push_copy_overrun da src n ho)
  | false =>
    right
    have hrun : push_copy da src n = .ok
        { da with
          payload := da.payload.take da.da.size ++ (List.range n).map src
            ++ da.payload.drop (da.da.size + n),
          da := { da.da with size := (da.da.size + n) % SIZE_T_MOD } } := by
      simp [push_copy, memcpy, ho]
    exact ⟨_, hrun, rfl, rfl⟩

/-- The header after the growth step, whatever `realloc` answers. -/
theorem realloc_many_header (harden : Bool) (fuel : Nat) (realloc : Allocator) (b : Block)
    (n K : Nat) (hlive : Live harden b) (hfuel : K ≤ fuel)
    (hreq : b.da.size + b.da.item_size * n ≤ doubled b.da.capacity K)
    (hfit : doubled b.da.capacity K < SIZE_T_MOD) :
    ∃ k ret b1, k ≤ K ∧
      agenda__realloc_many harden fuel realloc (some (some b)) n = .ok (ret, some (some b1)) ∧
      b1.da = { b.da with capacity := doubled b.da.capacity k } ∧
      b.da.size + b.da.item_size * n ≤ doubled b.da.capacity k ∧
      (∀ j, j < k → doubled b.da.capacity j < b.da.size + b.da.item_size * n) := by
  have hr : (b.da.size + (b.da.item_size * n) % SIZE_T_MOD) % SIZE_T_MOD
      = b.da.size + b.da.item_size * n := by
    have h2 : b.da.size + b.da.item_size * n < SIZE_T_MOD := lt_of_le_of_lt hreq hfit
    rw [Nat.mod_eq_of_lt (lt_of_le_of_lt (Nat.le_add_left _ _) h2), Nat.mod_eq_of_lt h2]
  obtain ⟨k, hk, hrun, hge, hmin⟩ := realloc_many_loop_spec K fuel
    (b.da.size + b.da.item_size * n) b.da.capacity hfuel hreq hfit
  unfold agenda__realloc_many
  rw [get_header_live harden b hlive]
  simp only [hr]
  by_cases hgt : b.da.size + b.da.item_size * n > b.da.capacity
  · rw [if_pos hgt, hrun]
    simp only [realloc_block]
    cases hre : realloc ((sizeof_Agenda_Header harden + doubled b.da.capacity k) % SIZE_T_MOD) with
    | none => exact ⟨k, false, _, hk, rfl, rfl, hge, hmin⟩
    | some f => exact ⟨k, true, _, hk, rfl, rfl, hge, hmin⟩
  · rw [if_neg hgt]
    refine ⟨0, true, b, Nat.zero_le _, rfl, ?_, ?_, ?_⟩
    · simp [doubled_zero]
    · rw [doubled_zero]; omega
    · intro j hj; omega

/-- The growth step on a well-allocated block with a `realloc` that succeeds. -/
theorem realloc_many_grows (harden : Bool) (fuel : Nat) (realloc : Allocator) (b : Block)
    (n K : Nat) (hlive : Live harden b) (hwa : WellAllocated b) (hfuel : K ≤ fuel)
    (hreq : b.da.size + b.da.item_size * n ≤ doubled b.da.capacity K)
    (hfit : sizeof_Agenda_Header harden + doubled b.da.capacity K < SIZE_T_MOD)
    (halloc : ∀ m, (realloc m).isSome = true) :
    ∃ k b1, k ≤ K ∧
      agenda__realloc_many harden fuel realloc (some (some b)) n = .ok (true, some (some b1)) ∧
      b1.da = { b.da with capacity := doubled b.da.capacity k } ∧
      b.da.size + b.da.item_size * n ≤ doubled b.da.capacity k ∧
      (∀ j, j < k → doubled b.da.capacity j < b.da.size + b.da.item_size * n) ∧
      b1.payload.length = doubled b.da.capacity k ∧
      b1.payload.take b.da.size = b.payload.take b.da.size := by
  obtain ⟨hlen, hsz⟩ := hwa
  have hr : (b.da.size + (b.da.item_size * n) % SIZE_T_MOD) % SIZE_T_MOD
      = b.da.size + b.da.item_size * n := by
    have h2 : b.da.size + b.da.item_size * n < SIZE_T_MOD :=
      lt_of_le_of_lt hreq (by omega)
    rw [Nat.mod_eq_of_lt (lt_of_le_of_lt (Nat.le_add_left _ _) h2), Nat.mod_eq_of_lt h2]
  obtain ⟨k, hk, hrun, hge, hmin⟩ := realloc_many_loop_spec K fuel
    (b.da.size + b.da.item_size * n) b.da.capacity hfuel hreq (by omega)
  have hkK : doubled b.da.capacity k ≤ doubled b.da.capacity K := doubled_mono _ hk
  unfold agenda__realloc_many
  rw [get_header_live harden b hlive]
  simp only [hr]
  by_cases hgt : b.da.size + b.da.item_size * n > b.da.capacity
  · rw [if_pos hgt, hrun]
    simp only [realloc_block]
    have hsome := halloc ((sizeof_Agenda_Header harden + doubled b.da.capacity k) % SIZE_T_MOD)
    cases hre : realloc ((sizeof_Agenda_Header harden + doubled b.da.capacity k) % SIZE_T_MOD) with
    | none => rw [hre] at hsome; simp at hsome
    | some f =>
      have hm : (sizeof_Agenda_Header harden + doubled b.da.capacity k) % SIZE_T_MOD
          - sizeof_Agenda_Header harden = doubled b.da.capacity k := by
        rw [Nat.mod_eq_of_lt (by omega)]; omega
      refine ⟨k, _, hk, rfl, rfl, hge, hmin, ?_, ?_⟩
      · simp [hm]
      · simp only [hm]
        exact take_resize _ _ _ _ (by omega) (by omega)
  · rw [if_neg hgt]
    have h0 : doubled b.da.capacity 0 = b.da.capacity := doubled_zero _
    refine ⟨0, b, Nat.zero_le _, rfl, ?_, ?_, ?_, ?_, rfl⟩
    · simp [doubled_zero]
    · rw [doubled_zero]; omega
    · intro j hj; omega
    · rw [doubled_zero]; exact hlen


theorem live_of_magic_eq (harden : Bool) (b b1 : Block) (h : Live harden b)
    (hm : b1.da.magic = b.da.magic) : Live harden b1 := by
  unfold Live at *
  intro hh; rw [hm]; exact h hh

/-- The call `agenda_push_back_array_` on a well-allocated live block when no `size_t`
computation wraps and `realloc` succeeds. -/
theorem push_back_array_grows (harden : Bool) (fuel : Nat) (realloc : Allocator) (b : Block)
    (arr : Nat → Byte) (n K : Nat) (hn : n ≠ 0) (hlive : Live harden b)
    (hwa : WellAllocated b) (hfuel : K ≤ fuel)
    (hreq : b.da.size + b.da.item_size * n ≤ doubled b.da.capacity K)
    (hfit : sizeof_Agenda_Header harden + doubled b.da.capacity K < SIZE_T_MOD)
    (halloc : ∀ m, (realloc m).isSome = true) :
    ∃ k b1, k ≤ K ∧
      agenda_push_back_array_ harden fuel realloc (some (some b)) arr n
        = .ok (true, some (some b1)) ∧
      b1.da = { b.da with capacity := doubled b.da.capacity k,
                          size := b.da.size + b.da.item_size * n } ∧
      b.da.size + b.da.item_size * n ≤ doubled b.da.capacity k ∧
      (∀ j, j < k → doubled b.da.capacity j < b.da.size + b.da.item_size * n) ∧
      b1.payload.length = doubled b.da.capacity k ∧
      b1.payload.take (b.da.size + b.da.item_size * n)
        = b.payload.take b.da.size ++ read_bytes arr (b.da.item_size * n) := by
  obtain ⟨k, b1, hk, hrun, hda, hge, hmin, hlen, htake⟩ :=
    realloc_many_grows harden fuel realloc b n K hlive hwa hfuel hreq hfit halloc
  have h2 : b.da.size + b.da.item_size * n < SIZE_T_MOD := lt_of_le_of_lt hreq (by omega)
  have h1 : b.da.item_size * n < SIZE_T_MOD := lt_of_le_of_lt (Nat.le_add_left _ _) h2
  have hlive1 : Live harden b1 := live_of_magic_eq harden b b1 hlive (by rw [hda])
  have hsz1 : b1.da.size = b.da.size := by rw [hda]
  have his1 : b1.da.item_size = b.da.item_size := by rw [hda]
  obtain ⟨b2, hcopy, _, hda2, hlen2, htake2⟩ :=
    push_copy_in_bounds b1 arr ((b1.da.item_size * n) % SIZE_T_MOD)
      (by rw [hsz1, his1, Nat.mod_eq_of_lt h1, hlen]; exact hge)
  rw [hsz1, his1, Nat.mod_eq_of_lt h1] at hda2 htake2
  refine ⟨k, b2, hk, ?_, ?_, hge, hmin, ?_, ?_⟩
  · unfold agenda_push_back_array_
    simp only [if_neg hn, magic_guard_live harden b hlive, hrun,
      get_header_live harden b1 hlive1, hcopy]
  · rw [hda2, hda, Nat.mod_eq_of_lt h2]
  · rw [hlen2, hlen]
  · rw [htake2, htake]

/-- The call `agenda_push_back_` on a well-allocated live block when no `size_t`
computation wraps and `realloc` succeeds. -/
theorem push_back_grows (harden : Bool) (fuel : Nat) (realloc : Allocator) (b : Block)
    (item : Nat → Byte) (K : Nat) (hlive : Live harden b)
    (hwa : WellAllocated b) (hfuel : K ≤ fuel)
    (hreq : b.da.size + b.da.item_size ≤ doubled b.da.capacity K)
    (hfit : sizeof_Agenda_Header harden + doubled b.da.capacity K < SIZE_T_MOD)
    (halloc : ∀ m, (realloc m).isSome = true) :
    ∃ k b1, k ≤ K ∧
      agenda_push_back_ harden fuel realloc (some (some b)) item
        = .ok (true, some (some b1)) ∧
      b1.da = { b.da with capacity := doubled b.da.capacity k,
                          size := b.da.size + b.da.item_size } ∧
      b.da.size + b.da.item_size ≤ doubled b.da.capacity k ∧
      (∀ j, j < k → doubled b.da.capacity j < b.da.size + b.da.item_size) ∧
      b1.payload.length = doubled b.da.capacity k ∧
      b1.payload.take (b.da.size + b.da.item_size)
        = b.payload.take b.da.size ++ read_bytes item b.da.item_size := by
  obtain ⟨k, b1, hk, hrun, hda, hge, hmin, hlen, htake⟩ :=
    realloc_many_grows harden fuel realloc b 1 K hlive hwa hfuel (by simpa using hreq) hfit
      halloc
  rw [Nat.mul_one] at hge hmin
  have h2 : b.da.size + b.da.item_size < SIZE_T_MOD := lt_of_le_of_lt hreq (by omega)
  have hlive1 : Live harden b1 := live_of_magic_eq harden b b1 hlive (by rw [hda])
  have hsz1 : b1.da.size = b.da.size := by rw [hda]
  have his1 : b1.da.item_size = b.da.item_size := by rw [hda]
  obtain ⟨b2, hcopy, _, hda2, hlen2, htake2⟩ :=
    push_copy_in_bounds b1 item b1.da.item_size
      (by rw [hsz1, his1, hlen]; exact hge)
  rw [hsz1, his1] at hda2 htake2
  refine ⟨k, b2, hk, ?_, ?_, hge, hmin, ?_, ?_⟩
  · unfold agenda_push_back_
    simp only [magic_guard_live harden b hlive, hrun, get_header_live harden b1 hlive1,
      hcopy]
  · rw [hda2, hda, Nat.mod_eq_of_lt h2]
  · rw [hlen2, hlen]
  · rw [htake2, htake]

/-! ## Runs of calls -/

theorem run_append (harden : Bool) (fuel : Nat) (ops1 ops2 : List Op) :
    ∀ (items : Option Agenda) (rs1 : List Bool) (items1 : Option Agenda),
      run harden fuel items ops1 = .ok (rs1, items1) →
      run harden fuel items (ops1 ++ ops2) =
        (match run harden fuel items1 ops2 with
         | .error e => .error e
         | .ok (rs2, items2) => .ok (rs1 ++ rs2, items2)) := by
  induction ops1 with
  | nil =>
    intro items rs1 items1 h
    simp only [run, Except.ok.injEq, Prod.mk.injEq] at h
    obtain ⟨rfl, rfl⟩ := h
    simp only [List.nil_append]
    cases run harden fuel items ops2 with
    | error e => rfl
    | ok v => rfl
  | cons op ops ih =>
    intro items rs1 items1 h
    rw [List.cons_append, run]
    rw [run] at h
    cases hc : op.call harden fuel items with
    | error e => rw [hc] at h; simp at h
    | ok v =>
      obtain ⟨r, it⟩ := v
      rw [hc] at h
      simp only at h ⊢
      cases hr : run harden fuel it ops with
      | error e => rw [hr] at h; simp at h
      | ok w =>
        obtain ⟨rs, it2⟩ := w
        rw [hr] at h
        simp only [Except.ok.injEq, Prod.mk.injEq] at h
        obtain ⟨rfl, rfl⟩ := h
        rw [ih it rs it2 hr]
        cases run harden fuel it2 ops2 with
        | error e => rfl
        | ok v => rfl

/-- A run of `agenda_push_back_` calls on a well-allocated live block when no
`size_t` computation wraps and every `realloc` succeeds. -/
theorem run_push_backs (harden : Bool) (fuel : Nat) :
    ∀ (its : List (Allocator × (Nat → Byte))) (b : Block) (K : Nat),
      Live harden b → WellAllocated b → K ≤ fuel →
      b.da.size + its.length * b.da.item_size ≤ doubled b.da.capacity K →
      sizeof_Agenda_Header harden + doubled b.da.capacity K < SIZE_T_MOD →
      (∀ p ∈ its, ∀ m, (p.1 m).isSome = true) →
      ∃ k b1, k ≤ K ∧
        run harden fuel (some (some b)) (its.map (fun p => Op.push_back p.1 p.2))
          = .ok (List.replicate its.length true, some (some b1)) ∧
        b1.da = { b.da with capacity := doubled b.da.capacity k,
                            size := b.da.size + its.length * b.da.item_size } ∧
        b.da.size + its.length * b.da.item_size ≤ doubled b.da.capacity k ∧
        (∀ j, j < k → doubled b.da.capacity j < b.da.size + its.length * b.da.item_size) ∧
        b1.payload.length = doubled b.da.capacity k ∧
        b1.payload.take (b.da.size + its.length * b.da.item_size)
          = b.payload.take b.da.size
            ++ (its.map (fun p => read_bytes p.2 b.da.item_size)).flatten := by
  intro its
  induction its with
  | nil =>
    intro b K _ hwa _ _ _ _
    obtain ⟨hlen, hsz⟩ := hwa
    refine ⟨0, b, Nat.zero_le _, ?_, ?_, ?_, ?_, ?_, ?_⟩
    · simp [run]
    · simp [doubled_zero]
    · simp [doubled_zero]; exact hsz
    · intro j hj; omega
    · simp [doubled_zero]; exact hlen
    · simp
  | cons p tl ih =>
    intro b K hlive hwa hfuel hreq hfit halloc
    have hmul : (p :: tl).length * b.da.item_size
        = b.da.item_size + tl.length * b.da.item_size := by
      simp only [List.length_cons]; ring
    rw [hmul] at hreq
    obtain ⟨k1, b1, hk1, hrun1, hda1, hge1, hmin1, hlen1, htake1⟩ :=
      push_back_grows harden fuel p.1 b p.2 K hlive hwa hfuel (by omega) hfit
        (halloc p (List.mem_cons_self _ _))
    have hlive1 : Live harden b1 := live_of_magic_eq harden b b1 hlive (by rw [hda1])
    have hsz1 : b1.da.size = b.da.size + b.da.item_size := by rw [hda1]
    have his1 : b1.da.item_size = b.da.item_size := by rw [hda1]
    have hcap1 : b1.da.capacity = doubled b.da.capacity k1 := by rw [hda1]
    have hwa1 : WellAllocated b1 := ⟨by rw [hlen1, hcap1], by rw [hsz1, hcap1]; exact hge1⟩
    have hKk : doubled b1.da.capacity (K - k1) = doubled b.da.capacity K := by
      rw [hcap1, ← doubled_add]; congr 1; omega
    obtain ⟨k2, b2, hk2, hrun2, hda2, hge2, hmin2, hlen2, htake2⟩ :=
      ih b1 (K - k1) hlive1 hwa1 (by omega) (by rw [hKk, hsz1, his1]; omega)
        (by rw [hKk]; exact hfit) (fun q hq => halloc q (List.mem_cons_of_mem _ hq))
    simp only [hda1, ← doubled_add] at hda2 hge2 hmin2 hlen2 htake2
    refine ⟨k1 + k2, b2, by omega, ?_, ?_, ?_, ?_, ?_, ?_⟩
    · simp only [List.map_cons, run, Op.call, hrun1, hrun2, List.length_cons,
        List.replicate_succ]
    · rw [hda2, hmul]; simp only [Agenda_Header.mk.injEq, true_and, and_true]; omega
    · rw [hmul]; omega
    · intro j hj
      rw [hmul]
      rcases Nat.lt_or_ge j k1 with hlt | hge
      · have := hmin1 j hlt; omega
      · have := hmin2 (j - k1) (by omega)
        rw [show k1 + (j - k1) = j by omega] at this
        omega
    · exact hlen2
    · rw [hmul, ← Nat.add_assoc, htake2]
      have : List.take (b.da.size + b.da.item_size) b1.payload
          = List.take b.da.size b.payload ++ read_bytes p.2 b.da.item_size := htake1
      rw [this]
      simp [List.append_assoc]

theorem run_pop_backs (harden : Bool) (fuel : Nat) :
    ∀ (K : Nat) (b : Block) (n : Nat), Live harden b →
      b.da.size = n * b.da.item_size → K ≤ n →
      ∃ b1, run harden fuel (some (some b)) (List.replicate K Op.pop_back)
          = .ok (List.replicate K true, some (some b1)) ∧
        b1.da = { b.da with size := (n - K) * b.da.item_size } ∧
        b1.payload = b.payload ∧ b1.addr = b.addr := by
  intro K
  induction K with
  | zero =>
    intro b n _ hsz _
    refine ⟨b, by simp [run], ?_, rfl, rfl⟩
    simp [← hsz]
  | succ K ih =>
    intro b n hlive hsz hK
    obtain ⟨m, rfl⟩ : ∃ m, n = m + 1 := ⟨n - 1, by omega⟩
    have hge : b.da.size ≥ b.da.item_size := by
      rw [hsz, Nat.succ_mul]; omega
    have hsub : b.da.size - b.da.item_size = m * b.da.item_size := by
      rw [hsz, Nat.succ_mul]; omega
    have hpop : agenda_pop_back_ harden (some (some b)) = .ok (true, some (some
        { b with da := { b.da with size := m * b.da.item_size } })) := by
      unfold agenda_pop_back_
      simp only [magic_guard_live harden b hlive, get_header_live harden b hlive, if_pos hge,
        hsub]
    obtain ⟨b1, hrun, hda, hpay, haddr⟩ :=
      ih { b with da := { b.da with size := m * b.da.item_size } } m
        (live_of_magic_eq harden b _ hlive rfl) rfl (by omega)
    refine ⟨b1, ?_, ?_, hpay, haddr⟩
    · simp only [List.replicate_succ, run, Op.call, hpop, hrun]
    · rw [hda]; simp only [Agenda_Header.mk.injEq, true_and, and_true]
      rw [show m + 1 - (K + 1) = m - K by omega]

theorem items_count_live (harden : Bool) (b : Block) (hlive : Live harden b)
    (hs : b.da.item_size ≠ 0) :
    agenda_items_count_ harden (some (some b)) = .ok (b.da.size / b.da.item_size) := by
  unfold agenda_items_count_
  simp only [magic_guard_live harden b hlive, get_header_live harden b hlive, if_neg hs]

/-- The block `agenda_init_` creates when `malloc` succeeds. -/
theorem init_block (harden : Bool) (malloc : Allocator) (item_size : Nat)
    (hs : item_size ≠ 0) (f : Fresh)
    (hm : malloc (sizeof_Agenda_Header harden + AGENDA_INITIAL_CAPACITY_IN_BYTES) = some f) :
    agenda_init_ harden malloc item_size = some
      { addr := f.addr,
        da := { magic := if harden then AGENDA_MAGIC_NUMBER else 0, item_size := item_size,
                size := 0, capacity := AGENDA_INITIAL_CAPACITY_IN_BYTES },
        payload := (List.range AGENDA_INITIAL_CAPACITY_IN_BYTES).map f.junk } := by
  unfold agenda_init_ malloc_block
  rw [if_neg hs, hm]
  simp

/-- Above `2 ^ 63` no capacity the loop can reach from a power of two holds
`required`: the loop uses up any fuel. -/
theorem realloc_many_loop_diverges (required : Nat) (h : 2 ^ 63 < required) :
    ∀ (fuel capacity : Nat), (capacity = 0 ∨ ∃ j, j ≤ 63 ∧ capacity = 2 ^ j) →
      agenda__realloc_many_loop fuel required capacity = none := by
  intro fuel
  induction fuel with
  | zero =>
    intro capacity hc
    have hle : capacity ≤ 2 ^ 63 := by
      rcases hc with rfl | ⟨j, hj, rfl⟩
      · exact Nat.zero_le _
      · exact Nat.pow_le_pow_right (by norm_num) hj
    simp [agenda__realloc_many_loop]; omega
  | succ fuel ih =>
    intro capacity hc
    have hle : capacity ≤ 2 ^ 63 := by
      rcases hc with rfl | ⟨j, hj, rfl⟩
      · exact Nat.zero_le _
      · exact Nat.pow_le_pow_right (by norm_num) hj
    rw [agenda__realloc_many_loop, if_pos (by omega)]
    apply ih
    rcases hc with rfl | ⟨j, hj, rfl⟩
    · right; exact ⟨1, by norm_num, by norm_num [AGENDA_SCALE_FACTOR, SIZE_T_MOD]⟩
    · have hpos : 0 < 2 ^ j := by positivity
      rw [if_pos hpos]
      rcases Nat.lt_or_ge j 63 with hlt | hge
      · right
        refine ⟨j + 1, by omega, ?_⟩
        have : 2 ^ (j + 1) < SIZE_T_MOD := by
          unfold SIZE_T_MOD
          exact Nat.pow_lt_pow_right (by norm_num) (by omega)
        rw [AGENDA_SCALE_FACTOR, ← pow_succ, Nat.mod_eq_of_lt this]
      · left
        have : j = 63 := by omega
        subst this
        norm_num [AGENDA_SCALE_FACTOR, SIZE_T_MOD]

/-! ## C1 : count after appends and removals -/

theorem sizeof_le (harden : Bool) : sizeof_Agenda_Header harden ≤ 32 := by
  cases harden <;> simp [sizeof_Agenda_Header]

theorem init_live (harden : Bool) (b : Block)
    (hm : b.da.magic = if harden then AGENDA_MAGIC_NUMBER else 0) : Live harden b := by
  intro h; rw [hm]; simp [h]

/-- The block `agenda_init_` creates when `malloc` succeeds, by its fields. -/
theorem init_block_spec (harden : Bool) (malloc : Allocator) (item_size : Nat)
    (hs : item_size ≠ 0) (f : Fresh)
    (hm : malloc (sizeof_Agenda_Header harden + AGENDA_INITIAL_CAPACITY_IN_BYTES) = some f) :
    ∃ b, agenda_init_ harden malloc item_size = some b ∧
      b.da.magic = (if harden then AGENDA_MAGIC_NUMBER else 0) ∧
      b.da.item_size = item_size ∧ b.da.size = 0 ∧
      b.da.capacity = AGENDA_INITIAL_CAPACITY_IN_BYTES ∧
      b.payload.length = AGENDA_INITIAL_CAPACITY_IN_BYTES :=
  ⟨_, init_block harden malloc item_size hs f hm, rfl, rfl, rfl, rfl, by simp⟩

/-- A call of `agenda_push_back_` whose growth loop does not stop does not return. -/
theorem push_back_no_return (harden : Bool) (fuel : Nat) (realloc : Allocator) (b : Block)
    (item : Nat → Byte) (hlive : Live harden b)
    (hgt : (b.da.size + (b.da.item_size * 1) % SIZE_T_MOD) % SIZE_T_MOD > b.da.capacity)
    (hloop : agenda__realloc_many_loop fuel
      ((b.da.size + (b.da.item_size * 1) % SIZE_T_MOD) % SIZE_T_MOD) b.da.capacity = none) :
    agenda_push_back_ harden fuel realloc (some (some b)) item = .error .no_return := by
  unfold agenda_push_back_ agenda__realloc_many
  simp only [magic_guard_live harden b hlive, get_header_live harden b hlive, if_pos hgt,
    hloop]

/-- C1 (amended): from `agenda_init_(s)` with `s > 0`, `N` calls of
`agenda_push_back_` followed by `K ≤ N` calls of `agenda_pop_back_`, all
allocations succeeding and `N * s ≤ 2 ^ 63` so that no `size_t` computation
wraps, return, and `agenda_items_count_` then returns `N - K`. -/
theorem count_after_pushes_and_pops (harden : Bool) (fuel : Nat) (malloc : Allocator)
    (s : Nat) (pushes : List (Allocator × (Nat → Byte))) (K : Nat)
    (hs : 0 < s) (hfit : pushes.length * s ≤ 2 ^ 63) (hK : K ≤ pushes.length)
    (hfuel : 64 ≤ fuel) (hmalloc : ∀ m, (malloc m).isSome = true)
    (hrealloc : ∀ p ∈ pushes, ∀ m, (p.1 m).isSome = true) :
    ∃ rs items1,
      run harden fuel (some (agenda_init_ harden malloc s))
        (pushes.map (fun p => Op.push_back p.1 p.2) ++ List.replicate K Op.pop_back)
        = .ok (rs, items1) ∧
      agenda_items_count_ harden items1 = .ok (pushes.length - K) := by
  obtain ⟨f, hf⟩ := Option.isSome_iff_exists.mp
    (hmalloc (sizeof_Agenda_Header harden + AGENDA_INITIAL_CAPACITY_IN_BYTES))
  obtain ⟨b0, hb0, hmag0, his0, hsz0, hcap0, hlen0⟩ :=
    init_block_spec harden malloc s (by omega) f hf
  rw [hb0]
  have hlive0 : Live harden b0 := init_live harden b0 hmag0
  have hd : doubled b0.da.capacity 55 = 2 ^ 63 := by
    rw [hcap0]
    norm_num [doubled, AGENDA_INITIAL_CAPACITY_IN_BYTES, AGENDA_SCALE_FACTOR]
  have h32 := sizeof_le harden
  obtain ⟨k, b1, _, hrun1, hda1, _, _, _, _⟩ :=
    run_push_backs harden fuel pushes b0 55 hlive0
      ⟨by rw [hlen0, hcap0], by rw [hsz0]; exact Nat.zero_le _⟩ (by omega)
      (by rw [hd, hsz0, his0]; omega)
      (by rw [hd]; norm_num [SIZE_T_MOD]; omega) hrealloc
  rw [hsz0, his0] at hda1
  simp only [Nat.zero_add] at hda1
  have hlive1 : Live harden b1 :=
    live_of_magic_eq harden _ b1 hlive0 (by rw [hda1])
  have his1 : b1.da.item_size = s := by rw [hda1]; exact his0
  have hsz1 : b1.da.size = pushes.length * b1.da.item_size := by
    rw [his1, hda1]
  obtain ⟨b2, hrun2, hda2, _, _⟩ :=
    run_pop_backs harden fuel K b1 pushes.length hlive1 hsz1 hK
  have hlive2 : Live harden b2 := live_of_magic_eq harden _ b2 hlive1 (by rw [hda2])
  refine ⟨List.replicate pushes.length true ++ List.replicate K true, some (some b2), ?_, ?_⟩
  · rw [run_append harden fuel _ _ _ _ _ hrun1, hrun2]
  · have his2 : b2.da.item_size = s := by rw [hda2]; exact his1
    have hsz2 : b2.da.size = (pushes.length - K) * s := by rw [hda2, his1]
    rw [items_count_live harden b2 hlive2 (by omega), hsz2, his2, Nat.mul_div_cancel _ hs]

/-- A run that satisfies the hypotheses of `count_after_pushes_and_pops`: two
pushes and one pop of four-byte items. -/
theorem count_after_pushes_and_pops_witness :
    ∃ rs items1,
      run true 64 (some (agenda_init_ true sample_allocator 4))
        ([(sample_allocator, sample_item 7), (sample_allocator, sample_item 9)].map
            (fun p => Op.push_back p.1 p.2) ++ List.replicate 1 Op.pop_back)
        = .ok (rs, items1) ∧
      agenda_items_count_ true items1
        = .ok ([(sample_allocator, sample_item 7), (sample_allocator, sample_item 9)].length - 1) :=
  count_after_pushes_and_pops true 64 sample_allocator 4
    [(sample_allocator, sample_item 7), (sample_allocator, sample_item 9)] 1
    (by decide) (by norm_num) (by decide) (by decide) (fun _ => rfl)
    (by intro p hp m; simp at hp; rcases hp with rfl | rfl <;> rfl)

/-- C1 as stated fails for `s = 2 ^ 64 - 1`: the first `agenda_push_back_` on
`agenda_init_(SIZE_MAX)` never leaves the growth loop, whatever the fuel, so no
count of `1` is ever returned. -/
theorem push_of_huge_item_never_returns :
    ¬ ∃ fuel rs items1,
      run true fuel (some (agenda_init_ true sample_allocator (2 ^ 64 - 1)))
        ([(sample_allocator, sample_item 7)].map (fun p => Op.push_back p.1 p.2)
          ++ List.replicate 0 Op.pop_back) = .ok (rs, items1) ∧
      agenda_items_count_ true items1 = .ok (1 - 0) := by
  rintro ⟨fuel, rs, items1, hrun, _⟩
  obtain ⟨b0, hb0, hmag0, his0, hsz0, hcap0, _⟩ :=
    init_block_spec true sample_allocator (2 ^ 64 - 1) (by norm_num) _ rfl
  have hloop := realloc_many_loop_diverges (2 ^ 64 - 1) (by norm_num) fuel
    AGENDA_INITIAL_CAPACITY_IN_BYTES
    (Or.inr ⟨8, by norm_num, by norm_num [AGENDA_INITIAL_CAPACITY_IN_BYTES]⟩)
  have hreq : (b0.da.size + (b0.da.item_size * 1) % SIZE_T_MOD) % SIZE_T_MOD = 2 ^ 64 - 1 := by
    rw [hsz0, his0]; norm_num [SIZE_T_MOD]
  rw [hb0, List.map_cons, List.map_nil, List.replicate_zero, List.append_nil, run, Op.call,
    push_back_no_return true fuel _ b0 _ (init_live true b0 hmag0)
      (by rw [hreq, hcap0]; norm_num [AGENDA_INITIAL_CAPACITY_IN_BYTES])
      (by rw [hreq, hcap0]; exact hloop)] at hrun
  cases hrun

/-! ## C2 : round trip -/

theorem read_bytes_bytes_at (e : List Byte) : read_bytes (bytes_at e) e.length = e := by
  unfold read_bytes bytes_at
  apply List.ext_getElem
  · simp
  · intro i h1 h2
    simp [List.getD_eq_getElem?_getD, List.getElem?_eq_getElem h2]

theorem slice_take (p : List Byte) (a s b : Nat) (h : a + s ≤ b) :
    ((p.take b).drop a).take s = (p.drop a).take s := by
  rw [List.drop_take, List.take_take, Nat.min_eq_left (by omega)]

theorem slice_flatten (s : Nat) :
    ∀ (l : List (List Byte)), (∀ e ∈ l, e.length = s) →
      ∀ (i : Nat) (hi : i < l.length), (l.flatten.drop (i * s)).take s = l[i] := by
  intro l
  induction l with
  | nil => intro _ i hi; simp at hi
  | cons e tl ih =>
    intro hlen i hi
    have he : e.length = s := hlen e (List.mem_cons_self _ _)
    cases i with
    | zero =>
      simp only [Nat.zero_mul, List.drop_zero, List.flatten_cons, List.getElem_cons_zero]
      rw [List.take_append_of_le_length (by omega), List.take_of_length_le (by omega)]
    | succ i =>
      simp only [List.flatten_cons, List.getElem_cons_succ]
      rw [show (i + 1) * s = e.length + i * s by rw [he]; ring, List.drop_append]
      exact ih (fun x hx => hlen x (List.mem_cons_of_mem _ hx)) i (by simpa using hi)

/-- C2 (amended): pushing elements of `s > 0` bytes each onto a freshly
initialised array, all allocations succeeding and `n * s ≤ 2 ^ 63` so that no
`size_t` computation wraps, returns and leaves `e_i` in the payload bytes
`[i * s, (i + 1) * s)` for every `i < n`. -/
theorem push_back_round_trip (harden : Bool) (fuel : Nat) (malloc : Allocator) (s : Nat)
    (pushes : List (Allocator × List Byte))
    (hs : 0 < s) (hfit : pushes.length * s ≤ 2 ^ 63)
    (hlen : ∀ p ∈ pushes, p.2.length = s) (hfuel : 64 ≤ fuel)
    (hmalloc : ∀ m, (malloc m).isSome = true)
    (hrealloc : ∀ p ∈ pushes, ∀ m, (p.1 m).isSome = true) :
    ∃ b, run harden fuel (some (agenda_init_ harden malloc s))
          (pushes.map (fun p => Op.push_back p.1 (bytes_at p.2)))
          = .ok (List.replicate pushes.length true, some (some b)) ∧
      b.da.size = pushes.length * s ∧
      ∀ (i : Nat) (hi : i < pushes.length), (b.payload.drop (i * s)).take s = pushes[i].2 := by
  obtain ⟨f, hf⟩ := Option.isSome_iff_exists.mp
    (hmalloc (sizeof_Agenda_Header harden + AGENDA_INITIAL_CAPACITY_IN_BYTES))
  obtain ⟨b0, hb0, hmag0, his0, hsz0, hcap0, hlen0⟩ :=
    init_block_spec harden malloc s (by omega) f hf
  rw [hb0]
  have hlive0 : Live harden b0 := init_live harden b0 hmag0
  have hd : doubled b0.da.capacity 55 = 2 ^ 63 := by
    rw [hcap0]
    norm_num [doubled, AGENDA_INITIAL_CAPACITY_IN_BYTES, AGENDA_SCALE_FACTOR]
  have h32 := sizeof_le harden
  obtain ⟨k, b1, _, hrun1, hda1, _, _, hlen1, htake1⟩ :=
    run_push_backs harden fuel (pushes.map (fun p => (p.1, bytes_at p.2))) b0 55 hlive0
      ⟨by rw [hlen0, hcap0], by rw [hsz0]; exact Nat.zero_le _⟩ (by omega)
      (by rw [hd, hsz0, his0, List.length_map]; omega)
      (by rw [hd]; norm_num [SIZE_T_MOD]; omega)
      (by
        intro q hq m
        obtain ⟨p, hp, rfl⟩ := List.mem_map.mp hq
        exact hrealloc p hp m)
  rw [hsz0, his0, List.length_map] at hda1 htake1
  rw [List.map_map, List.length_map] at hrun1
  have hflat : (List.map (fun p => read_bytes p.2 s)
      (List.map (fun p => (p.1, bytes_at p.2)) pushes)).flatten
      = (pushes.map (fun p => p.2)).flatten := by
    rw [List.map_map]
    congr 1
    apply List.map_congr_left
    intro p hp
    have := read_bytes_bytes_at p.2
    rw [hlen p hp] at this
    simpa using this
  rw [hflat, Nat.zero_add, List.take_zero, List.nil_append] at htake1
  refine ⟨b1, hrun1, by simp [hda1], ?_⟩
  intro i hi
  have hle : i * s + s ≤ pushes.length * s := by
    have : (i + 1) * s ≤ pushes.length * s := Nat.mul_le_mul_right s (by omega)
    rw [Nat.succ_mul] at this; exact this
  rw [← slice_take b1.payload (i * s) s (pushes.length * s) hle, htake1]
  rw [slice_flatten s (pushes.map (fun p => p.2))
    (by intro e he; obtain ⟨p, hp, rfl⟩ := List.mem_map.mp he; exact hlen p hp) i
    (by simpa using hi)]
  simp

/-- A run that satisfies the hypotheses of `push_back_round_trip`: two elements of
two bytes each. -/
theorem push_back_round_trip_witness :
    ∃ b, run true 64 (some (agenda_init_ true sample_allocator 2))
          ([(sample_allocator, [1, 2]), (sample_allocator, [3, 4])].map
            (fun p => Op.push_back p.1 (bytes_at p.2)))
          = .ok (List.replicate
              [(sample_allocator, [1, 2]), (sample_allocator, [3, 4])].length true,
            some (some b)) ∧
      b.da.size = [(sample_allocator, [1, 2]), (sample_allocator, [3, 4])].length * 2 ∧
      ∀ (i : Nat) (hi : i < [(sample_allocator, [1, 2]), (sample_allocator, [3, 4])].length),
        (b.payload.drop (i * 2)).take 2
          = [(sample_allocator, [1, 2]), (sample_allocator, [3, 4])][i].2 :=
  push_back_round_trip true 64 sample_allocator 2
    [(sample_allocator, [1, 2]), (sample_allocator, [3, 4])]
    (by decide) (by norm_num)
    (by intro p hp; simp at hp; rcases hp with rfl | rfl <;> rfl)
    (by decide) (fun _ => rfl)
    (by intro p hp m; simp at hp; rcases hp with rfl | rfl <;> rfl)

/-- C2 as stated fails for `s = 2 ^ 64 - 1`: the push of the one element of
`2 ^ 64 - 1` bytes never leaves the growth loop, whatever the fuel, so the
element is never found in the payload. -/
theorem huge_element_is_never_stored :
    ¬ ∃ fuel b,
      run true fuel (some (agenda_init_ true sample_allocator (2 ^ 64 - 1)))
        ([(sample_allocator, List.replicate (2 ^ 64 - 1) 0)].map
          (fun p => Op.push_back p.1 (bytes_at p.2)))
        = .ok (List.replicate 1 true, some (some b)) ∧
      (b.payload.drop (0 * (2 ^ 64 - 1))).take (2 ^ 64 - 1)
        = List.replicate (2 ^ 64 - 1) 0 := by
  rintro ⟨fuel, b, hrun, _⟩
  obtain ⟨b0, hb0, hmag0, his0, hsz0, hcap0, _⟩ :=
    init_block_spec true sample_allocator (2 ^ 64 - 1) (by norm_num) _ rfl
  have hloop := realloc_many_loop_diverges (2 ^ 64 - 1) (by norm_num) fuel
    AGENDA_INITIAL_CAPACITY_IN_BYTES
    (Or.inr ⟨8, by norm_num, by norm_num [AGENDA_INITIAL_CAPACITY_IN_BYTES]⟩)
  have hreq : (b0.da.size + (b0.da.item_size * 1) % SIZE_T_MOD) % SIZE_T_MOD = 2 ^ 64 - 1 := by
    rw [hsz0, his0]; norm_num [SIZE_T_MOD]
  rw [hb0, List.map_cons, List.map_nil, run, Op.call,
    push_back_no_return true fuel _ b0 _ (init_live true b0 hmag0)
      (by rw [hreq, hcap0]; norm_num [AGENDA_INITIAL_CAPACITY_IN_BYTES])
      (by rw [hreq, hcap0]; exact hloop)] at hrun
  cases hrun

/-! ## C3 : construction -/

/-- C3: `agenda_init_(item_size)` returns `NULL` when `item_size == 0` or `malloc`
fails; otherwise it returns a live handle whose header has the given
`item_size`, `size == 0` and `capacity == AGENDA_INITIAL_CAPACITY_IN_BYTES`
(256), on which `agenda_items_count_` returns `0`. -/
theorem agenda_init_spec (harden : Bool) (malloc : Allocator) (item_size : Nat) :
    (item_size = 0 ∨
        malloc (sizeof_Agenda_Header harden + AGENDA_INITIAL_CAPACITY_IN_BYTES) = none →
      agenda_init_ harden malloc item_size = none) ∧
    (item_size ≠ 0 →
      (malloc (sizeof_Agenda_Header harden + AGENDA_INITIAL_CAPACITY_IN_BYTES)).isSome = true →
      ∃ b, agenda_init_ harden malloc item_size = some b ∧ Live harden b ∧
        b.da.item_size = item_size ∧ b.da.size = 0 ∧
        b.da.capacity = AGENDA_INITIAL_CAPACITY_IN_BYTES ∧
        AGENDA_INITIAL_CAPACITY_IN_BYTES = 256 ∧
        agenda_items_count_ harden (some (some b)) = .ok 0) := by
  constructor
  · intro h
    unfold agenda_init_ malloc_block
    rcases h with h | h
    · rw [if_pos h]
    · rw [h]; simp
  · intro hs hm
    obtain ⟨f, hf⟩ := Option.isSome_iff_exists.mp hm
    obtain ⟨b, hb, hmag, his, hsz, hcap, _⟩ := init_block_spec harden malloc item_size hs f hf
    have hlive : Live harden b := init_live harden b hmag
    refine ⟨b, hb, hlive, his, hsz, hcap, rfl, ?_⟩
    rw [items_count_live harden b hlive (by rw [his]; exact hs), hsz, Nat.zero_div]

/-- The three cases of `agenda_init_spec` on concrete inputs: a zero item size, a
failing `malloc`, and a successful creation of an array of four-byte items. -/
theorem agenda_init_spec_witness :
    agenda_init_ true sample_allocator 0 = none ∧
    agenda_init_ true failing_allocator 4 = none ∧
    ∃ b, agenda_init_ true sample_allocator 4 = some b ∧ Live true b ∧
      b.da.item_size = 4 ∧ b.da.size = 0 ∧
      b.da.capacity = AGENDA_INITIAL_CAPACITY_IN_BYTES ∧
      AGENDA_INITIAL_CAPACITY_IN_BYTES = 256 ∧
      agenda_items_count_ true (some (some b)) = .ok 0 :=
  ⟨(agenda_init_spec true sample_allocator 0).1 (Or.inl rfl),
   (agenda_init_spec true failing_allocator 4).1 (Or.inr rfl),
   (agenda_init_spec true sample_allocator 4).2 (by decide) rfl⟩

/-! ## C4 : geometric growth -/

/-- The call `agenda_push_back_array_` on a live block, whatever `realloc` answers,
when no `size_t` computation wraps: the copy is a heap overrun, or the call
returns `true` with the capacity the growth loop stopped at. -/
theorem push_back_array_header (harden : Bool) (fuel : Nat) (realloc : Allocator) (b : Block)
    (arr : Nat → Byte) (n K : Nat) (hn : n ≠ 0) (hlive : Live harden b) (hfuel : K ≤ fuel)
    (hreq : b.da.size + b.da.item_size * n ≤ doubled b.da.capacity K)
    (hfit : doubled b.da.capacity K < SIZE_T_MOD) :
    ∃ k, k ≤ K ∧
      b.da.size + b.da.item_size * n ≤ doubled b.da.capacity k ∧
      (∀ j, j < k → doubled b.da.capacity j < b.da.size + b.da.item_size * n) ∧
      (agenda_push_back_array_ harden fuel realloc (some (some b)) arr n
          = .error .heap_overrun ∨
        ∃ b1, agenda_push_back_array_ harden fuel realloc (some (some b)) arr n
            = .ok (true, some (some b1)) ∧
          b1.da = { b.da with capacity := doubled b.da.capacity k,
                              size := b.da.size + b.da.item_size * n }) := by
  obtain ⟨k, ret, b1, hk, hrun, hda, hge, hmin⟩ :=
    realloc_many_header harden fuel realloc b n K hlive hfuel hreq hfit
  have h2 : b.da.size + b.da.item_size * n < SIZE_T_MOD := lt_of_le_of_lt hreq hfit
  have h1 : b.da.item_size * n < SIZE_T_MOD := lt_of_le_of_lt (Nat.le_add_left _ _) h2
  have hlive1 : Live harden b1 := live_of_magic_eq harden b b1 hlive (by rw [hda])
  have hcall : agenda_push_back_array_ harden fuel realloc (some (some b)) arr n
      = match push_copy b1 arr ((b1.da.item_size * n) % SIZE_T_MOD) with
        | .error e => .error e
        | .ok da1 => .ok (true, some (some da1)) := by
    unfold agenda_push_back_array_
    simp only [if_neg hn, magic_guard_live harden b hlive, hrun,
      get_header_live harden b1 hlive1]
  refine ⟨k, hk, hge, hmin, ?_⟩
  rcases push_copy_cases b1 arr ((b1.da.item_size * n) % SIZE_T_MOD) with he | ⟨b2, hb2, _, hda2⟩
  · left; rw [hcall, he]
  · right
    refine ⟨b2, by rw [hcall, hb2], ?_⟩
    rw [hda2, hda]
    simp only [Nat.mod_eq_of_lt h1, Nat.mod_eq_of_lt h2]

/-- The call `agenda_push_back_` on a live block, whatever `realloc` answers, when
no `size_t` computation wraps: the copy is a heap overrun, or the call returns
`true` with the capacity the growth loop stopped at. -/
theorem push_back_header (harden : Bool) (fuel : Nat) (realloc : Allocator) (b : Block)
    (item : Nat → Byte) (K : Nat) (hlive : Live harden b) (hfuel : K ≤ fuel)
    (hreq : b.da.size + b.da.item_size ≤ doubled b.da.capacity K)
    (hfit : doubled b.da.capacity K < SIZE_T_MOD) :
    ∃ k, k ≤ K ∧
      b.da.size + b.da.item_size ≤ doubled b.da.capacity k ∧
      (∀ j, j < k → doubled b.da.capacity j < b.da.size + b.da.item_size) ∧
      (agenda_push_back_ harden fuel realloc (some (some b)) item = .error .heap_overrun ∨
        ∃ b1, agenda_push_back_ harden fuel realloc (some (some b)) item
            = .ok (true, some (some b1)) ∧
          b1.da = { b.da with capacity := doubled b.da.capacity k,
                              size := b.da.size + b.da.item_size }) := by
  obtain ⟨k, ret, b1, hk, hrun, hda, hge, hmin⟩ :=
    realloc_many_header harden fuel realloc b 1 K hlive hfuel (by simpa using hreq) hfit
  rw [Nat.mul_one] at hge hmin
  have h2 : b.da.size + b.da.item_size < SIZE_T_MOD := lt_of_le_of_lt hreq hfit
  have hlive1 : Live harden b1 := live_of_magic_eq harden b b1 hlive (by rw [hda])
  have hcall : agenda_push_back_ harden fuel realloc (some (some b)) item
      = match push_copy b1 item b1.da.item_size with
        | .error e => .error e
        | .ok da1 => .ok (true, some (some da1)) := by
    unfold agenda_push_back_
    simp only [magic_guard_live harden b hlive, hrun, get_header_live harden b1 hlive1]
  refine ⟨k, hk, hge, hmin, ?_⟩
  rcases push_copy_cases b1 item b1.da.item_size with he | ⟨b2, hb2, _, hda2⟩
  · left; rw [hcall, he]
  · right
    refine ⟨b2, by rw [hcall, hb2], ?_⟩
    rw [hda2, hda]
    simp only [Nat.mod_eq_of_lt h2]

/-- The first capacity of the doubling chain of `c > 0` that holds `r` is the
geometric growth of `c` for `r`. -/
theorem geometric_of_least (c r k : Nat) (hc : 0 < c) (hge : r ≤ doubled c k)
    (hmin : ∀ j, j < k → doubled c j < r) : GeometricGrowth c r (doubled c k) := by
  refine ⟨?_, ?_, ?_⟩
  · have := doubled_mono c (Nat.zero_le k)
    rwa [doubled_zero] at this
  · intro hle
    rcases Nat.eq_zero_or_pos k with h0 | hpos
    · rw [h0, doubled_zero]
    · have := hmin 0 hpos
      rw [doubled_zero] at this
      omega
  · intro hlt
    have hk1 : 1 ≤ k := by
      rcases Nat.eq_zero_or_pos k with h0 | hpos
      · rw [h0, doubled_zero] at hge; omega
      · exact hpos
    refine ⟨k, hk1, ?_, ?_, ?_⟩
    · rw [doubled_of_pos c k hc, AGENDA_SCALE_FACTOR]
    · rw [doubled_of_pos c k hc] at hge; rw [AGENDA_SCALE_FACTOR]; exact hge
    · intro j _ hj
      by_contra hcon
      have := hmin j (by omega)
      rw [doubled_of_pos c j hc] at this
      rw [AGENDA_SCALE_FACTOR] at hj
      omega

theorem fuel_bound (c K : Nat) (hc : 0 < c) (h : c * 2 ^ K < SIZE_T_MOD) : K < 64 := by
  by_contra hcon
  have h1 : 2 ^ 64 ≤ 2 ^ K := Nat.pow_le_pow_right (by norm_num) (by omega)
  have h2 : 2 ^ K ≤ c * 2 ^ K := Nat.le_mul_of_pos_left _ hc
  unfold SIZE_T_MOD at h
  omega

/-- C4: on a live array with capacity `c > 0`, when no `size_t` computation
wraps (some `c * 2 ^ K` below `2 ^ 64` holds the required size
`r = size + item_size * n`), a call of `agenda_push_back_` (one item) or of
`agenda_push_back_array_` (`n ≥ 1` items) either runs its copy past the end of
the allocation or succeeds, and a push that succeeds leaves a capacity
`c1 ≥ c`, with `c1 = c` when `r ≤ c` and otherwise `c1 = c * 2 ^ k` for the
least `k ≥ 1` such that `c * 2 ^ k ≥ r`.  Both pushes succeed when the header
describes the allocation, the grown block fits a `size_t` with its header and
`realloc` succeeds. -/
theorem growth_monotonic_geometric (harden : Bool) (fuel : Nat) (realloc : Allocator)
    (b : Block) (src : Nat → Byte) (n K : Nat)
    (hlive : Live harden b) (hc : 0 < b.da.capacity) (hn : 1 ≤ n) (hfuel : 64 ≤ fuel)
    (hreq : b.da.size + b.da.item_size * n ≤ b.da.capacity * 2 ^ K)
    (hfit : b.da.capacity * 2 ^ K < SIZE_T_MOD) :
    ((∃ b1, agenda_push_back_ harden fuel realloc (some (some b)) src
          = .ok (true, some (some b1)) ∧
        GeometricGrowth b.da.capacity (b.da.size + b.da.item_size * 1) b1.da.capacity) ∨
      agenda_push_back_ harden fuel realloc (some (some b)) src = .error .heap_overrun) ∧
    ((∃ b1, agenda_push_back_array_ harden fuel realloc (some (some b)) src n
          = .ok (true, some (some b1)) ∧
        GeometricGrowth b.da.capacity (b.da.size + b.da.item_size * n) b1.da.capacity) ∨
      agenda_push_back_array_ harden fuel realloc (some (some b)) src n
        = .error .heap_overrun) ∧
    (WellAllocated b →
      sizeof_Agenda_Header harden + b.da.capacity * 2 ^ K < SIZE_T_MOD →
      (∀ m, (realloc m).isSome = true) →
      (∃ b1, agenda_push_back_ harden fuel realloc (some (some b)) src
          = .ok (true, some (some b1)) ∧
        GeometricGrowth b.da.capacity (b.da.size + b.da.item_size * 1) b1.da.capacity) ∧
      (∃ b1, agenda_push_back_array_ harden fuel realloc (some (some b)) src n
          = .ok (true, some (some b1)) ∧
        GeometricGrowth b.da.capacity (b.da.size + b.da.item_size * n) b1.da.capacity)) := by
  have hK : K < 64 := fuel_bound _ K hc hfit
  rw [← doubled_of_pos _ K hc] at hreq hfit
  have hone : b.da.item_size ≤ b.da.item_size * n := Nat.le_mul_of_pos_right _ hn
  refine ⟨?_, ?_, ?_⟩
  · obtain ⟨k, _, hge, hmin, hrun⟩ :=
      push_back_header harden fuel realloc b src K hlive (by omega) (by omega) hfit
    rcases hrun with he | ⟨b1, hrun, hda⟩
    · exact Or.inr he
    · left
      refine ⟨b1, hrun, ?_⟩
      have hcap : b1.da.capacity = doubled b.da.capacity k := by rw [hda]
      rw [hcap, Nat.mul_one]
      exact geometric_of_least _ _ k hc hge hmin
  · obtain ⟨k, _, hge, hmin, hrun⟩ :=
      push_back_array_header harden fuel realloc b src n K (by omega) hlive (by omega) hreq hfit
    rcases hrun with he | ⟨b1, hrun, hda⟩
    · exact Or.inr he
    · left
      refine ⟨b1, hrun, ?_⟩
      have hcap : b1.da.capacity = doubled b.da.capacity k := by rw [hda]
      rw [hcap]
      exact geometric_of_least _ _ k hc hge hmin
  · intro hwa hfit2 halloc
    rw [← doubled_of_pos _ K hc] at hfit2
    constructor
    · obtain ⟨k, b1, _, hrun, hda, hge, hmin, _, _⟩ :=
        push_back_grows harden fuel realloc b src K hlive hwa (by omega) (by omega) hfit2
          halloc
      refine ⟨b1, hrun, ?_⟩
      have hcap : b1.da.capacity = doubled b.da.capacity k := by rw [hda]
      rw [hcap, Nat.mul_one]
      exact geometric_of_least _ _ k hc hge hmin
    · obtain ⟨k, b1, _, hrun, hda, hge, hmin, _, _⟩ :=
        push_back_array_grows harden fuel realloc b src n K (by omega) hlive hwa (by omega)
          hreq hfit2 halloc
      refine ⟨b1, hrun, ?_⟩
      have hcap : b1.da.capacity = doubled b.da.capacity k := by rw [hda]
      rw [hcap]
      exact geometric_of_least _ _ k hc hge hmin

/-- An input that satisfies the hypotheses of `growth_monotonic_geometric`, and
those of its last part: three more two-byte items on `sample_block` (6 bytes
used of 8) require 12 bytes, `8 * 2 ^ 1` holds them, and both pushes succeed. -/
theorem growth_monotonic_geometric_witness :
    (∃ b1, agenda_push_back_ true 64 sample_allocator (some (some sample_block))
        (sample_item 7) = .ok (true, some (some b1)) ∧
      GeometricGrowth sample_block.da.capacity
        (sample_block.da.size + sample_block.da.item_size * 1) b1.da.capacity) ∧
    (∃ b1, agenda_push_back_array_ true 64 sample_allocator (some (some sample_block))
        (sample_item 7) 3 = .ok (true, some (some b1)) ∧
      GeometricGrowth sample_block.da.capacity
        (sample_block.da.size + sample_block.da.item_size * 3) b1.da.capacity) :=
  (growth_monotonic_geometric true 64 sample_allocator sample_block (sample_item 7) 3 1
    (fun _ => rfl) (by decide) (by decide) (by decide) (by decide)
    (by norm_num [sample_block, SIZE_T_MOD])).2.2 ⟨rfl, by decide⟩
    (by norm_num [sample_block, SIZE_T_MOD, sizeof_Agenda_Header]) (fun _ => rfl)

/-! ## C5 : the reset that never resets -/

/-- C5 (code defect): `agenda_reset_` on any non-null `items` takes the early
return of its first test `items != NULL || *items == NULL`: it returns `false`
and leaves the array as it was, so that on `sample_block` the size stays `6`
and `agenda_items_count_` still returns `3`; with a null `items` the test reads
`*items`. -/
theorem reset_returns_false (harden : Bool) (a : Agenda) :
    agenda_reset_ harden (some a) = .ok (false, some a) ∧
    agenda_reset_ true (some (some sample_block)) = .ok (false, some (some sample_block)) ∧
    sample_block.da.size = 6 ∧
    agenda_items_count_ true (some (some sample_block)) = .ok 3 ∧
    agenda_reset_ harden none = .error .null_deref := by
  refine ⟨by simp [agenda_reset_], by simp [agenda_reset_], rfl, ?_, by simp [agenda_reset_]⟩
  rw [items_count_live true sample_block (fun _ => rfl) (by decide)]
  rfl

/-! ## C6 : shrink to fit -/

theorem shrink_to_fit_ok (harden : Bool) (realloc : Allocator) (b : Block)
    (hlive : Live harden b) (f : Fresh)
    (hre : realloc ((sizeof_Agenda_Header harden + b.da.size) % SIZE_T_MOD) = some f) :
    agenda_shrink_to_fit_ harden realloc (some (some b)) = .ok (true, some (some
      { addr := f.addr, da := { b.da with capacity := b.da.size },
        payload := (List.range ((sizeof_Agenda_Header harden + b.da.size) % SIZE_T_MOD
            - sizeof_Agenda_Header harden)).map (fun i => b.payload.getD i (f.junk i)) })) := by
  unfold agenda_shrink_to_fit_ realloc_block
  simp only [magic_guard_live harden b hlive, get_header_live harden b hlive, hre]

theorem shrink_to_fit_fields (harden : Bool) (realloc : Allocator) (b : Block)
    (hlive : Live harden b) (f : Fresh)
    (hre : realloc ((sizeof_Agenda_Header harden + b.da.size) % SIZE_T_MOD) = some f) :
    ∃ b1, agenda_shrink_to_fit_ harden realloc (some (some b)) = .ok (true, some (some b1)) ∧
      b1.da = { b.da with capacity := b.da.size } ∧
      b1.payload = (List.range ((sizeof_Agenda_Header harden + b.da.size) % SIZE_T_MOD
            - sizeof_Agenda_Header harden)).map (fun i => b.payload.getD i (f.junk i)) :=
  ⟨_, shrink_to_fit_ok harden realloc b hlive f hre, rfl, rfl⟩

/-- C6: on a live array a call of `agenda_shrink_to_fit_` whose `realloc`
succeeds returns `true`, sets `capacity == size` and leaves `size`, `item_size`
(and the tag) unchanged; the `size` bytes in use, when they lie in the
allocation and `sizeof(Agenda_Header) + size` fits a `size_t`, are the whole
payload afterwards; a second successful call leaves the same header. -/
theorem shrink_to_fit_spec (harden : Bool) (realloc realloc2 : Allocator) (b : Block)
    (hlive : Live harden b)
    (hre : (realloc ((sizeof_Agenda_Header harden + b.da.size) % SIZE_T_MOD)).isSome = true)
    (hre2 : (realloc2 ((sizeof_Agenda_Header harden + b.da.size) % SIZE_T_MOD)).isSome = true) :
    ∃ b1 b2,
      agenda_shrink_to_fit_ harden realloc (some (some b)) = .ok (true, some (some b1)) ∧
      b1.da.capacity = b1.da.size ∧ b1.da.size = b.da.size ∧
      b1.da.item_size = b.da.item_size ∧ b1.da.magic = b.da.magic ∧
      (b.da.size ≤ b.payload.length →
        sizeof_Agenda_Header harden + b.da.size < SIZE_T_MOD →
        b1.payload = b.payload.take b.da.size) ∧
      agenda_shrink_to_fit_ harden realloc2 (some (some b1)) = .ok (true, some (some b2)) ∧
      b2.da = b1.da := by
  obtain ⟨f, hf⟩ := Option.isSome_iff_exists.mp hre
  obtain ⟨f2, hf2⟩ := Option.isSome_iff_exists.mp hre2
  obtain ⟨b1, h1, hda1, hpay1⟩ := shrink_to_fit_fields harden realloc b hlive f hf
  have hsz1 : b1.da.size = b.da.size := by rw [hda1]
  have hlive1 : Live harden b1 := live_of_magic_eq harden b b1 hlive (by rw [hda1])
  obtain ⟨b2, h2, hda2, _⟩ :=
    shrink_to_fit_fields harden realloc2 b1 hlive1 f2 (by rw [hsz1]; exact hf2)
  refine ⟨b1, b2, h1, by rw [hda1], hsz1, by rw [hda1], by rw [hda1], ?_, h2, ?_⟩
  · intro hsz hfit
    rw [hpay1]
    simp only [Nat.mod_eq_of_lt hfit, Nat.add_sub_cancel_left]
    have := take_resize b.payload f.junk b.da.size b.da.size (le_refl _) hsz
    rw [List.take_of_length_le (by simp)] at this
    exact this
  · rw [hda2, hda1]

/-- An input that satisfies the hypotheses of `shrink_to_fit_spec`: `sample_block`
and an allocator that succeeds. -/
theorem shrink_to_fit_spec_witness :
    ∃ b1 b2,
      agenda_shrink_to_fit_ true sample_allocator (some (some sample_block))
        = .ok (true, some (some b1)) ∧
      b1.da.capacity = b1.da.size ∧ b1.da.size = sample_block.da.size ∧
      b1.da.item_size = sample_block.da.item_size ∧ b1.da.magic = sample_block.da.magic ∧
      (sample_block.da.size ≤ sample_block.payload.length →
        sizeof_Agenda_Header true + sample_block.da.size < SIZE_T_MOD →
        b1.payload = sample_block.payload.take sample_block.da.size) ∧
      agenda_shrink_to_fit_ true sample_allocator (some (some b1))
        = .ok (true, some (some b2)) ∧
      b2.da = b1.da :=
  shrink_to_fit_spec true sample_allocator sample_allocator sample_block (fun _ => rfl)
    rfl rfl

/-! ## C7 : appending an array against appending its items -/

theorem read_bytes_add (src : Nat → Byte) (a b : Nat) :
    read_bytes src (a + b) = read_bytes src a ++ read_bytes (offset_ptr src a) b := by
  unfold read_bytes offset_ptr
  rw [List.range_add, List.map_append, List.map_map]
  rfl

theorem flatten_slices (arr : Nat → Byte) (s : Nat) :
    ∀ n, ((List.range n).map (fun i => read_bytes (offset_ptr arr (i * s)) s)).flatten
      = read_bytes arr (s * n) := by
  intro n
  induction n with
  | zero => simp [read_bytes]
  | succ n ih =>
    rw [List.range_succ, List.map_append, List.flatten_append, ih,
      show s * (n + 1) = s * n + s from Nat.mul_succ s n, read_bytes_add]
    simp [Nat.mul_comm n s]

theorem doubled_fuel_bound (c K : Nat) (h : doubled c K < SIZE_T_MOD) : K < 64 := by
  by_contra hcon
  have hK : K ≠ 0 := by omega
  have h1 : 2 ^ 64 ≤ 2 ^ K := Nat.pow_le_pow_right (by norm_num) (by omega)
  have h2 : 2 ^ K ≤ doubled c K := by
    simp only [doubled, hK, if_false, AGENDA_SCALE_FACTOR]
    apply Nat.le_mul_of_pos_left
    split <;> omega
  unfold SIZE_T_MOD at h
  omega

/-- C7: on a live, well-allocated array, for `n ≥ 1` items at `arr`, when no
`size_t` computation wraps (some capacity of the doubling chain holds
`size + item_size * n` and fits a `size_t` together with the header) and every
`realloc` succeeds, `agenda_push_back_array_(items, arr, n)` and the `n` calls
`agenda_push_back_(items, arr + i * item_size)` all return `true` and leave the
same header and the same `size` payload bytes. -/
theorem push_back_array_refines_push_back (harden : Bool) (fuel : Nat) (realloc : Allocator)
    (reallocs : Nat → Allocator) (b : Block) (arr : Nat → Byte) (n K : Nat)
    (hlive : Live harden b) (hwa : WellAllocated b) (hn : 1 ≤ n) (hfuel : 64 ≤ fuel)
    (hreq : b.da.size + b.da.item_size * n ≤ doubled b.da.capacity K)
    (hfit : sizeof_Agenda_Header harden + doubled b.da.capacity K < SIZE_T_MOD)
    (hre : ∀ m, (realloc m).isSome = true)
    (hres : ∀ i m, (reallocs i m).isSome = true) :
    ∃ b1 b2,
      agenda_push_back_array_ harden fuel realloc (some (some b)) arr n
        = .ok (true, some (some b1)) ∧
      push_back_each harden fuel reallocs (some (some b)) arr b.da.item_size n
        = .ok (List.replicate n true, some (some b2)) ∧
      b1.da = b2.da ∧
      b1.payload.take b1.da.size = b2.payload.take b2.da.size := by
  have hK : K ≤ fuel := by
    have := doubled_fuel_bound b.da.capacity K (by omega)
    omega
  obtain ⟨k1, b1, _, hrun1, hda1, hge1, hmin1, _, htake1⟩ :=
    push_back_array_grows harden fuel realloc b arr n K (by omega) hlive hwa hK hreq hfit hre
  obtain ⟨k2, b2, _, hrun2, hda2, hge2, hmin2, _, htake2⟩ :=
    run_push_backs harden fuel
      ((List.range n).map (fun i => (reallocs i, offset_ptr arr (i * b.da.item_size))))
      b K hlive hwa hK
      (by rw [List.length_map, List.length_range, Nat.mul_comm]; exact hreq) hfit
      (by
        intro q hq m
        obtain ⟨i, _, rfl⟩ := List.mem_map.mp hq
        exact hres i m)
  rw [List.length_map, List.length_range, Nat.mul_comm n] at hda2 hge2 hmin2 htake2
  rw [List.map_map, List.length_map, List.length_range] at hrun2
  have hk : k1 = k2 := by
    rcases Nat.lt_trichotomy k1 k2 with h | h | h
    · have := hmin2 k1 h; omega
    · exact h
    · have := hmin1 k2 h; omega
  have hflat : (List.map (fun p => read_bytes p.2 b.da.item_size)
      (List.map (fun i => (reallocs i, offset_ptr arr (i * b.da.item_size)))
        (List.range n))).flatten = read_bytes arr (b.da.item_size * n) := by
    rw [List.map_map]
    exact flatten_slices arr b.da.item_size n
  rw [hflat] at htake2
  have hsz1 : b1.da.size = b.da.size + b.da.item_size * n := by rw [hda1]
  have hsz2 : b2.da.size = b.da.size + b.da.item_size * n := by rw [hda2]
  refine ⟨b1, b2, hrun1, hrun2, ?_, ?_⟩
  · rw [hda1, hda2, hk]
  · rw [hsz1, hsz2, htake1, htake2]

/-- An input that satisfies the hypotheses of `push_back_array_refines_push_back`:
three two-byte items appended to `sample_block`, which grows from 8 to 16 bytes. -/
theorem push_back_array_refines_push_back_witness :
    ∃ b1 b2,
      agenda_push_back_array_ true 64 sample_allocator (some (some sample_block))
        (sample_item 7) 3 = .ok (true, some (some b1)) ∧
      push_back_each true 64 (fun _ => sample_allocator) (some (some sample_block))
        (sample_item 7) sample_block.da.item_size 3
        = .ok (List.replicate 3 true, some (some b2)) ∧
      b1.da = b2.da ∧
      b1.payload.take b1.da.size = b2.payload.take b2.da.size :=
  push_back_array_refines_push_back true 64 sample_allocator (fun _ => sample_allocator)
    sample_block (sample_item 7) 3 1 (fun _ => rfl) ⟨rfl, by decide⟩ (by decide) (by decide)
    (by decide) (by norm_num [sample_block, doubled, sizeof_Agenda_Header, SIZE_T_MOD,
      AGENDA_SCALE_FACTOR])
    (fun _ => rfl) (fun _ _ => rfl)

/-! ## C8, C9 : removal and destruction -/

/-- C8: on a live array `agenda_pop_back_` returns `false` exactly when
`size < item_size`, and then changes nothing; otherwise it returns `true` and
takes `item_size` off `size`, leaving `item_size`, `capacity`, the tag, the
address and every payload byte as they were.  On a null handle it returns
`false`. -/
theorem pop_back_spec (harden : Bool) (b : Block) (hlive : Live harden b) :
    (∃ r b1, agenda_pop_back_ harden (some (some b)) = .ok (r, some (some b1)) ∧
      (r = false ↔ b.da.size < b.da.item_size) ∧
      (r = false → b1 = b) ∧
      (r = true → b1.da.size + b.da.item_size = b.da.size ∧
        b1.da.item_size = b.da.item_size ∧ b1.da.capacity = b.da.capacity ∧
        b1.da.magic = b.da.magic ∧ b1.payload = b.payload ∧ b1.addr = b.addr)) ∧
    agenda_pop_back_ harden (some none) = .ok (false, some none) := by
  refine ⟨?_, rfl⟩
  unfold agenda_pop_back_
  simp only [magic_guard_live harden b hlive, get_header_live harden b hlive]
  by_cases h : b.da.size ≥ b.da.item_size
  · rw [if_pos h]
    refine ⟨true, _, rfl, ?_, ?_, ?_⟩
    · simp; omega
    · intro hc; cases hc
    · intro _
      refine ⟨?_, rfl, rfl, rfl, rfl, rfl⟩
      simp only; omega
  · rw [if_neg h]
    refine ⟨false, b, rfl, ?_, ?_, ?_⟩
    · simp; omega
    · intro _; rfl
    · intro hc; cases hc

/-- An input that satisfies the hypothesis of `pop_back_spec`: `sample_block`. -/
theorem pop_back_spec_witness :
    (∃ r b1, agenda_pop_back_ true (some (some sample_block)) = .ok (r, some (some b1)) ∧
      (r = false ↔ sample_block.da.size < sample_block.da.item_size) ∧
      (r = false → b1 = sample_block) ∧
      (r = true → b1.da.size + sample_block.da.item_size = sample_block.da.size ∧
        b1.da.item_size = sample_block.da.item_size ∧
        b1.da.capacity = sample_block.da.capacity ∧
        b1.da.magic = sample_block.da.magic ∧ b1.payload = sample_block.payload ∧
        b1.addr = sample_block.addr)) ∧
    agenda_pop_back_ true (some none) = .ok (false, some none) :=
  pop_back_spec true sample_block (fun _ => rfl)

/-- C9: on a live array `agenda_deinit_` returns `true` and sets the caller's
handle to `NULL`; on that null handle a further `agenda_deinit_` returns
`false`, `agenda_push_back_` returns `false` and `agenda_items_count_` returns
`0`, the handle staying `NULL`. -/
theorem deinit_spec (harden : Bool) (fuel : Nat) (realloc : Allocator) (b : Block)
    (item : Nat → Byte) (hlive : Live harden b) :
    agenda_deinit_ harden (some (some b)) = .ok (true, some none) ∧
    agenda_deinit_ harden (some none) = .ok (false, some none) ∧
    agenda_push_back_ harden fuel realloc (some none) item = .ok (false, some none) ∧
    agenda_items_count_ harden (some none) = .ok 0 := by
  refine ⟨?_, rfl, rfl, rfl⟩
  unfold agenda_deinit_
  simp only [magic_guard_live harden b hlive]

/-- An input that satisfies the hypothesis of `deinit_spec`: `sample_block`. -/
theorem deinit_spec_witness :
    agenda_deinit_ true (some (some sample_block)) = .ok (true, some none) ∧
    agenda_deinit_ true (some none) = .ok (false, some none) ∧
    agenda_push_back_ true 64 sample_allocator (some none) (sample_item 7)
      = .ok (false, some none) ∧
    agenda_items_count_ true (some none) = .ok 0 :=
  deinit_spec true 64 sample_allocator sample_block (sample_item 7) (fun _ => rfl)

/-! ## C10 : operations on a corrupted tag -/

/-- In a hardened build the guard of every operation reads `magic` through the
`NULL` that `agenda_get_header_` returns for a mismatching tag. -/
theorem magic_guard_corrupted (b : Block) (h : b.da.magic ≠ AGENDA_MAGIC_NUMBER) :
    agenda_get_header_ true (some (some b)) = none ∧
    magic_guard true (some (some b)) = .error .null_deref := by
  have hg : agenda_get_header_ true (some (some b)) = none := by
    simp [agenda_get_header_, h]
  exact ⟨hg, by simp [magic_guard, hg]⟩

/-- C10 (code defect): in a hardened build, on the handle of `corrupted_block`
(tag `0` instead of `0x4144`), `agenda_get_header_` returns `NULL` and
`agenda_reset_` returns `false`, but `agenda_deinit_`, `agenda_push_back_`,
`agenda_push_back_array_`, `agenda_pop_back_`, `agenda_shrink_to_fit_` and
`agenda_items_count_` read `magic` through that `NULL` instead of returning. -/
theorem corrupted_tag_faults (fuel : Nat) (realloc : Allocator) (src : Nat → Byte) :
    agenda_get_header_ true (some (some corrupted_block)) = none ∧
    agenda_reset_ true (some (some corrupted_block))
      = .ok (false, some (some corrupted_block)) ∧
    agenda_deinit_ true (some (some corrupted_block)) = .error .null_deref ∧
    agenda_push_back_ true fuel realloc (some (some corrupted_block)) src
      = .error .null_deref ∧
    agenda_push_back_array_ true fuel realloc (some (some corrupted_block)) src 1
      = .error .null_deref ∧
    agenda_pop_back_ true (some (some corrupted_block)) = .error .null_deref ∧
    agenda_shrink_to_fit_ true realloc (some (some corrupted_block)) = .error .null_deref ∧
    agenda_items_count_ true (some (some corrupted_block)) = .error .null_deref := by
  obtain ⟨hh, hg⟩ := magic_guard_corrupted corrupted_block (by decide)
  refine ⟨hh, by simp [agenda_reset_], ?_, ?_, ?_, ?_, ?_, ?_⟩
  · simp only [agenda_deinit_, hg]
  · simp only [agenda_push_back_, hg]
  · simp [agenda_push_back_array_, hg]
  · simp only [agenda_pop_back_, hg]
  · simp only [agenda_shrink_to_fit_, hg]
  · simp only [agenda_items_count_, hg]

/-! ## C11 : a failed growth step -/

/-- The growth step on a live block when no `size_t` computation wraps, by the
answer of `realloc`. -/
theorem realloc_many_eq (harden : Bool) (fuel : Nat) (realloc : Allocator) (b : Block)
    (n K : Nat) (hlive : Live harden b) (hfuel : K ≤ fuel)
    (hreq : b.da.size + b.da.item_size * n ≤ doubled b.da.capacity K)
    (hfit : doubled b.da.capacity K < SIZE_T_MOD) :
    ∃ k, k ≤ K ∧ b.da.size + b.da.item_size * n ≤ doubled b.da.capacity k ∧
      (∀ j, j < k → doubled b.da.capacity j < b.da.size + b.da.item_size * n) ∧
      agenda__realloc_many harden fuel realloc (some (some b)) n =
        if b.da.capacity < b.da.size + b.da.item_size * n then
          match realloc ((sizeof_Agenda_Header harden + doubled b.da.capacity k)
              % SIZE_T_MOD) with
          | none =>
            .ok (false, some (some
              { b with da := { b.da with capacity := doubled b.da.capacity k } }))
          | some f =>
            .ok (true, some (some
              { addr := f.addr, da := { b.da with capacity := doubled b.da.capacity k },
                payload := (List.range ((sizeof_Agenda_Header harden
                    + doubled b.da.capacity k) % SIZE_T_MOD
                    - sizeof_Agenda_Header harden)).map
                  (fun i => b.payload.getD i (f.junk i)) }))
        else .ok (true, some (some b)) := by
  have hr : (b.da.size + (b.da.item_size * n) % SIZE_T_MOD) % SIZE_T_MOD
      = b.da.size + b.da.item_size * n := by
    have h2 : b.da.size + b.da.item_size * n < SIZE_T_MOD := lt_of_le_of_lt hreq hfit
    rw [Nat.mod_eq_of_lt (lt_of_le_of_lt (Nat.le_add_left _ _) h2), Nat.mod_eq_of_lt h2]
  obtain ⟨k, hk, hrun, hge, hmin⟩ := realloc_many_loop_spec K fuel
    (b.da.size + b.da.item_size * n) b.da.capacity hfuel hreq hfit
  refine ⟨k, hk, hge, hmin, ?_⟩
  unfold agenda__realloc_many
  rw [get_header_live harden b hlive]
  simp only [hr]
  by_cases hgt : b.da.size + b.da.item_size * n > b.da.capacity
  · rw [if_pos hgt, if_pos hgt, hrun]
    simp only [realloc_block]
    cases realloc ((sizeof_Agenda_Header harden + doubled b.da.capacity k) % SIZE_T_MOD) with
    | none => rfl
    | some f => rfl
  · rw [if_neg hgt, if_neg hgt]

/-- C11 (code defect): on `sample_block` (capacity 8, 6 bytes used, two-byte
items) the growth step for three more items with a failing `realloc` returns
`false` and keeps the address, the payload, `item_size` and `size`, but leaves
`capacity == 16` in the header of the allocation of eight bytes. -/
theorem failed_growth_changes_capacity :
    ∃ b1, agenda__realloc_many true 64 failing_allocator (some (some sample_block)) 3
        = .ok (false, some (some b1)) ∧
      b1.addr = sample_block.addr ∧ b1.payload = sample_block.payload ∧
      b1.da.item_size = sample_block.da.item_size ∧ b1.da.size = sample_block.da.size ∧
      sample_block.da.capacity = 8 ∧ b1.payload.length = 8 ∧ b1.da.capacity = 16 := by
  refine ⟨{ sample_block with da := { sample_block.da with capacity := 16 } }, ?_,
    rfl, rfl, rfl, rfl, rfl, rfl, rfl⟩
  rfl

/-! ## C15, C16 : failed reallocations in shrink and push -/

/-- When the loop stops, the capacity holds the required size. -/
theorem realloc_many_loop_exit :
    ∀ (fuel required capacity c1 : Nat),
      agenda__realloc_many_loop fuel required capacity = some c1 → required ≤ c1 := by
  intro fuel
  induction fuel with
  | zero =>
    intro required capacity c1 h
    simp only [agenda__realloc_many_loop] at h
    split at h
    · cases h
    · simp only [Option.some.injEq] at h; omega
  | succ fuel ih =>
    intro required capacity c1 h
    rw [agenda__realloc_many_loop] at h
    split at h
    · exact ih _ _ _ h
    · simp only [Option.some.injEq] at h; omega

/-- C15: on a live array, when the `realloc` inside `agenda_shrink_to_fit_` fails
the call returns `false` and the handle, the header and the payload are what
they were; on a null handle the call returns `false`. -/
theorem shrink_to_fit_failure (harden : Bool) (realloc : Allocator) (b : Block)
    (hlive : Live harden b)
    (hfail : realloc ((sizeof_Agenda_Header harden + b.da.size) % SIZE_T_MOD) = none) :
    agenda_shrink_to_fit_ harden realloc (some (some b)) = .ok (false, some (some b)) ∧
    agenda_shrink_to_fit_ harden realloc (some none) = .ok (false, some none) := by
  refine ⟨?_, rfl⟩
  unfold agenda_shrink_to_fit_ realloc_block
  simp only [magic_guard_live harden b hlive, get_header_live harden b hlive, hfail]

/-- An input that satisfies the hypotheses of `shrink_to_fit_failure`:
`sample_block` and an allocator that fails. -/
theorem shrink_to_fit_failure_witness :
    agenda_shrink_to_fit_ true failing_allocator (some (some sample_block))
      = .ok (false, some (some sample_block)) ∧
    agenda_shrink_to_fit_ true failing_allocator (some none) = .ok (false, some none) :=
  shrink_to_fit_failure true failing_allocator sample_block (fun _ => rfl) rfl

theorem doubled_zero_cap (k : Nat) (hk : 1 ≤ k) : doubled 0 k = 2 ^ k := by
  have hk0 : k ≠ 0 := by omega
  simp [doubled, hk0, AGENDA_SCALE_FACTOR]

/-- C17: on a live array whose capacity is `0`, for a required size
`r = size + item_size * n ≥ 1` that some `2 ^ K` below `2 ^ 64` holds (no
overflow) and a `realloc` that succeeds, `agenda__realloc_many` returns `true`
and leaves the capacity `2 ^ k` for the least `k ≥ 1` with `2 ^ k ≥ r`, which is
non-zero and at least `r`; `item_size` and `size` stay. -/
theorem growth_from_zero_capacity (harden : Bool) (fuel : Nat) (realloc : Allocator)
    (b : Block) (n K : Nat) (hlive : Live harden b) (hc : b.da.capacity = 0)
    (hr : 1 ≤ b.da.size + b.da.item_size * n) (hfuel : 64 ≤ fuel)
    (hreq : b.da.size + b.da.item_size * n ≤ 2 ^ K) (hfit : 2 ^ K < SIZE_T_MOD)
    (hre : ∀ m, (realloc m).isSome = true) :
    ∃ k b1, 1 ≤ k ∧
      agenda__realloc_many harden fuel realloc (some (some b)) n
        = .ok (true, some (some b1)) ∧
      b1.da.capacity = 2 ^ k ∧ b.da.size + b.da.item_size * n ≤ 2 ^ k ∧
      (∀ j, 1 ≤ j → b.da.size + b.da.item_size * n ≤ 2 ^ j → k ≤ j) ∧
      0 < b1.da.capacity ∧ b.da.size + b.da.item_size * n ≤ b1.da.capacity ∧
      b1.da.item_size = b.da.item_size ∧ b1.da.size = b.da.size := by
  have hK1 : doubled b.da.capacity (max K 1) = 2 ^ (max K 1) := by
    rw [hc]; exact doubled_zero_cap _ (le_max_right _ _)
  have hle : 2 ^ K ≤ 2 ^ (max K 1) := Nat.pow_le_pow_right (by norm_num) (le_max_left _ _)
  have hfit1 : 2 ^ (max K 1) < SIZE_T_MOD := by
    rcases Nat.eq_zero_or_pos K with h0 | hpos
    · subst h0; norm_num [SIZE_T_MOD]
    · rw [max_eq_left hpos]; exact hfit
  have hKf : max K 1 ≤ fuel := by
    have := doubled_fuel_bound b.da.capacity (max K 1) (by rw [hK1]; exact hfit1)
    omega
  obtain ⟨k, _, hge, hmin, heq⟩ :=
    realloc_many_eq harden fuel realloc b n (max K 1) hlive hKf (by rw [hK1]; omega)
      (by rw [hK1]; exact hfit1)
  have hk1 : 1 ≤ k := by
    rcases Nat.eq_zero_or_pos k with h0 | hpos
    · rw [h0, doubled_zero, hc] at hge; omega
    · exact hpos
  rw [hc, doubled_zero_cap k hk1] at hge
  rw [if_pos (by rw [hc]; omega)] at heq
  obtain ⟨f, hf⟩ := Option.isSome_iff_exists.mp
    (hre ((sizeof_Agenda_Header harden + doubled b.da.capacity k) % SIZE_T_MOD))
  rw [hf] at heq
  have hpos : 0 < 2 ^ k := by positivity
  refine ⟨k, _, hk1, heq, ?_, hge, ?_, ?_, ?_, rfl, rfl⟩
  · simp only [hc, doubled_zero_cap k hk1]
  · intro j hj hrj
    by_contra hcon
    have := hmin j (by omega)
    rw [hc, doubled_zero_cap j hj] at this
    omega
  · simp only [hc, doubled_zero_cap k hk1]; exact hpos
  · simp only [hc, doubled_zero_cap k hk1]; exact hge

/-- An input that satisfies the hypotheses of `growth_from_zero_capacity`: three
two-byte items for `empty_block` require 6 bytes, and `2 ^ 3` holds them. -/
theorem growth_from_zero_capacity_witness :
    ∃ k b1, 1 ≤ k ∧
      agenda__realloc_many true 64 sample_allocator (some (some empty_block)) 3
        = .ok (true, some (some b1)) ∧
      b1.da.capacity = 2 ^ k ∧ empty_block.da.size + empty_block.da.item_size * 3 ≤ 2 ^ k ∧
      (∀ j, 1 ≤ j → empty_block.da.size + empty_block.da.item_size * 3 ≤ 2 ^ j → k ≤ j) ∧
      0 < b1.da.capacity ∧
      empty_block.da.size + empty_block.da.item_size * 3 ≤ b1.da.capacity ∧
      b1.da.item_size = empty_block.da.item_size ∧ b1.da.size = empty_block.da.size :=
  growth_from_zero_capacity true 64 sample_allocator empty_block 3 3 (fun _ => rfl) rfl
    (by decide) (by decide) (by decide) (by norm_num [SIZE_T_MOD]) (fun _ => rfl)

/-! ## C18 : termination of the growth loop -/

theorem loop_unbounded_eq (K : Nat) :
    ∀ (required capacity k : Nat), k ≤ K → required ≤ doubled capacity k →
      (∀ j, j < k → doubled capacity j < required) →
      agenda__realloc_many_loop_unbounded required capacity = doubled capacity k := by
  induction K with
  | zero =>
    intro required capacity k hk hge _
    have : k = 0 := by omega
    subst this
    rw [doubled_zero] at hge ⊢
    rw [agenda__realloc_many_loop_unbounded, if_neg (by omega)]
  | succ K ih =>
    intro required capacity k hk hge hmin
    cases k with
    | zero =>
      rw [doubled_zero] at hge ⊢
      rw [agenda__realloc_many_loop_unbounded, if_neg (by omega)]
    | succ k =>
      have h0 := hmin 0 (by omega)
      rw [doubled_zero] at h0
      rw [agenda__realloc_many_loop_unbounded, if_pos h0, ← doubled_one_eq,
        doubled_succ capacity k]
      apply ih _ _ k (by omega)
      · rw [← doubled_succ capacity k]; exact hge
      · intro j hj
        rw [← doubled_succ capacity j]
        exact hmin (j + 1) (by omega)

/-- C18: for every header and every number `n` of new items such that a
capacity of the doubling chain holds the required size `size + item_size * n`
without leaving `size_t`, the `while` loop of `agenda__realloc_many` stops: on
any fuel of 64 or more it returns the capacity reached after `k < 64` rounds,
which holds the required size and is the result of the loop run over the
natural numbers by well-founded recursion on the gap between the required size
and the capacity; at each round that gap gets strictly smaller. -/
theorem growth_loop_terminates (b : Block) (n K fuel : Nat)
    (hreq : b.da.size + b.da.item_size * n ≤ doubled b.da.capacity K)
    (hfit : doubled b.da.capacity K < SIZE_T_MOD) (hfuel : 64 ≤ fuel) :
    ∃ k, k < 64 ∧
      agenda__realloc_many_loop fuel
          ((b.da.size + (b.da.item_size * n) % SIZE_T_MOD) % SIZE_T_MOD) b.da.capacity
        = some (doubled b.da.capacity k) ∧
      b.da.size + b.da.item_size * n ≤ doubled b.da.capacity k ∧
      doubled b.da.capacity k
        = agenda__realloc_many_loop_unbounded (b.da.size + b.da.item_size * n)
            b.da.capacity ∧
      (∀ j, j < k →
        b.da.size + b.da.item_size * n - doubled b.da.capacity (j + 1)
          < b.da.size + b.da.item_size * n - doubled b.da.capacity j) := by
  have hr : (b.da.size + (b.da.item_size * n) % SIZE_T_MOD) % SIZE_T_MOD
      = b.da.size + b.da.item_size * n := by
    have h2 : b.da.size + b.da.item_size * n < SIZE_T_MOD := lt_of_le_of_lt hreq hfit
    rw [Nat.mod_eq_of_lt (lt_of_le_of_lt (Nat.le_add_left _ _) h2), Nat.mod_eq_of_lt h2]
  have hK := doubled_fuel_bound b.da.capacity K hfit
  obtain ⟨k, hk, hrun, hge, hmin⟩ := realloc_many_loop_spec K fuel
    (b.da.size + b.da.item_size * n) b.da.capacity (by omega) hreq hfit
  refine ⟨k, by omega, by rw [hr]; exact hrun, hge,
    (loop_unbounded_eq k _ _ k (le_refl _) hge hmin).symm, ?_⟩
  intro j hj
  have h1 := hmin j hj
  have h2 := doubled_lt_succ b.da.capacity j
  omega

/-- An input that satisfies the hypotheses of `growth_loop_terminates`: three more
two-byte items on `sample_block` (capacity 8) require 12 bytes. -/
theorem growth_loop_terminates_witness :
    ∃ k, k < 64 ∧
      agenda__realloc_many_loop 64
          ((sample_block.da.size + (sample_block.da.item_size * 3) % SIZE_T_MOD)
            % SIZE_T_MOD) sample_block.da.capacity
        = some (doubled sample_block.da.capacity k) ∧
      sample_block.da.size + sample_block.da.item_size * 3
        ≤ doubled sample_block.da.capacity k ∧
      doubled sample_block.da.capacity k
        = agenda__realloc_many_loop_unbounded
            (sample_block.da.size + sample_block.da.item_size * 3)
            sample_block.da.capacity ∧
      (∀ j, j < k →
        sample_block.da.size + sample_block.da.item_size * 3
            - doubled sample_block.da.capacity (j + 1)
          < sample_block.da.size + sample_block.da.item_size * 3
            - doubled sample_block.da.capacity j) :=
  growth_loop_terminates sample_block 3 1 64 (by decide)
    (by norm_num [sample_block, doubled, SIZE_T_MOD, AGENDA_SCALE_FACTOR]) (by decide)

/-! ## C12, C13 : invariants of the reachable states -/

/-- A block that is not live belongs to a hardened build and has a wrong tag. -/
theorem not_live (harden : Bool) (b : Block) (h : ¬ Live harden b) :
    harden = true ∧ b.da.magic ≠ AGENDA_MAGIC_NUMBER := by
  unfold Live at h
  push_neg at h
  exact h

/-- A growth step that returns on a live block keeps all but `capacity`, which
then holds the required size. -/
theorem realloc_many_ok (harden : Bool) (fuel : Nat) (realloc : Allocator) (b : Block)
    (n : Nat) (ret : Bool) (items1 : Option Agenda) (hlive : Live harden b)
    (h : agenda__realloc_many harden fuel realloc (some (some b)) n = .ok (ret, items1)) :
    ∃ b1, items1 = some (some b1) ∧ b1.da.magic = b.da.magic ∧
      b1.da.item_size = b.da.item_size ∧ b1.da.size = b.da.size ∧
      (b.da.size + (b.da.item_size * n) % SIZE_T_MOD) % SIZE_T_MOD ≤ b1.da.capacity := by
  unfold agenda__realloc_many at h
  rw [get_header_live harden b hlive] at h
  simp only at h
  split at h
  · split at h
    · cases h
    · rename_i cap hloop
      have hexit := realloc_many_loop_exit _ _ _ _ hloop
      simp only [realloc_block] at h
      cases hre : realloc ((sizeof_Agenda_Header harden + cap) % SIZE_T_MOD) with
      | none =>
        rw [hre] at h
        simp only [Except.ok.injEq, Prod.mk.injEq] at h
        exact ⟨_, h.2.symm, rfl, rfl, rfl, hexit⟩
      | some f =>
        rw [hre] at h
        simp only [Except.ok.injEq, Prod.mk.injEq] at h
        exact ⟨_, h.2.symm, rfl, rfl, rfl, hexit⟩
  · rename_i hle
    simp only [Except.ok.injEq, Prod.mk.injEq] at h
    exact ⟨b, h.2.symm, rfl, rfl, rfl, by omega⟩

/-- One call that returns on a live block leaves a live block with the same tag
and `item_size`; it keeps `size ≤ capacity`, and it keeps `size` a multiple of
`item_size` when the required size of a push does not wrap. -/
theorem call_step (harden : Bool) (fuel : Nat) (b : Block) (op : Op) (r : Bool)
    (items1 : Option Agenda) (hlive : Live harden b)
    (h : op.call harden fuel (some (some b)) = .ok (r, items1)) :
    ∃ b1, items1 = some (some b1) ∧ b1.da.magic = b.da.magic ∧
      b1.da.item_size = b.da.item_size ∧
      (b.da.size ≤ b.da.capacity → b1.da.size ≤ b1.da.capacity) ∧
      (op.no_wrap b → b.da.size % b.da.item_size = 0 →
        b1.da.size % b1.da.item_size = 0) := by
  cases op with
  | push_back realloc item =>
    simp only [Op.call, agenda_push_back_, magic_guard_live harden b hlive] at h
    cases hrm : agenda__realloc_many harden fuel realloc (some (some b)) 1 with
    | error e => rw [hrm] at h; cases h
    | ok v =>
      obtain ⟨ret, it1⟩ := v
      obtain ⟨b1, rfl, hmag, his, hsz, hcap⟩ :=
        realloc_many_ok harden fuel realloc b 1 ret it1 hlive hrm
      have hlive1 : Live harden b1 := live_of_magic_eq harden b b1 hlive hmag
      rw [hrm] at h
      simp only [get_header_live harden b1 hlive1] at h
      cases hpc : push_copy b1 item b1.da.item_size with
      | error e => rw [hpc] at h; cases h
      | ok b2 =>
        rw [hpc] at h
        simp only [Except.ok.injEq, Prod.mk.injEq] at h
        obtain ⟨_, hda2, _⟩ := push_copy_ok b1 item b1.da.item_size b2 hpc
        rw [Nat.mul_one, Nat.add_mod_mod] at hcap
        refine ⟨b2, h.2.symm, ?_, ?_, ?_, ?_⟩
        · rw [hda2]; exact hmag
        · rw [hda2]; exact his
        · intro _
          rw [hda2]
          simp only [hsz, his]
          exact hcap
        · intro hnw hmod
          simp only [Op.no_wrap, Nat.mul_one] at hnw
          rw [hda2]
          simp only [hsz, his, Nat.mod_eq_of_lt hnw, Nat.add_mod_right]
          exact hmod
  | push_back_array realloc arr n =>
    simp only [Op.call, agenda_push_back_array_] at h
    by_cases hn : n = 0
    · rw [if_pos hn] at h
      simp only [Except.ok.injEq, Prod.mk.injEq] at h
      exact ⟨b, h.2.symm, rfl, rfl, fun hh => hh, fun _ hh => hh⟩
    · rw [if_neg hn] at h
      simp only [magic_guard_live harden b hlive] at h
      cases hrm : agenda__realloc_many harden fuel realloc (some (some b)) n with
      | error e => rw [hrm] at h; cases h
      | ok v =>
        obtain ⟨ret, it1⟩ := v
        obtain ⟨b1, rfl, hmag, his, hsz, hcap⟩ :=
          realloc_many_ok harden fuel realloc b n ret it1 hlive hrm
        have hlive1 : Live harden b1 := live_of_magic_eq harden b b1 hlive hmag
        rw [hrm] at h
        simp only [get_header_live harden b1 hlive1] at h
        cases hpc : push_copy b1 arr ((b1.da.item_size * n) % SIZE_T_MOD) with
        | error e => rw [hpc] at h; cases h
        | ok b2 =>
          rw [hpc] at h
          simp only [Except.ok.injEq, Prod.mk.injEq] at h
          obtain ⟨_, hda2, _⟩ :=
            push_copy_ok b1 arr ((b1.da.item_size * n) % SIZE_T_MOD) b2 hpc
          refine ⟨b2, h.2.symm, ?_, ?_, ?_, ?_⟩
          · rw [hda2]; exact hmag
          · rw [hda2]; exact his
          · intro _
            rw [hda2]
            simp only [hsz, his]
            exact hcap
          · intro hnw hmod
            simp only [Op.no_wrap] at hnw
            have h1 : b.da.item_size * n < SIZE_T_MOD := by omega
            rw [hda2]
            simp only [hsz, his, Nat.mod_eq_of_lt h1, Nat.mod_eq_of_lt hnw,
              Nat.add_mul_mod_self_left]
            exact hmod
  | pop_back =>
    simp only [Op.call, agenda_pop_back_, magic_guard_live harden b hlive,
      get_header_live harden b hlive] at h
    by_cases hge : b.da.size ≥ b.da.item_size
    · rw [if_pos hge] at h
      simp only [Except.ok.injEq, Prod.mk.injEq] at h
      refine ⟨_, h.2.symm, rfl, rfl, ?_, ?_⟩
      · intro hh; simp only; omega
      · intro _ hmod
        simp only
        have hd : b.da.item_size ∣ b.da.size - b.da.item_size :=
          Nat.dvd_sub' (Nat.dvd_of_mod_eq_zero hmod) (dvd_refl _)
        exact Nat.mod_eq_zero_of_dvd hd
    · rw [if_neg hge] at h
      simp only [Except.ok.injEq, Prod.mk.injEq] at h
      exact ⟨b, h.2.symm, rfl, rfl, fun hh => hh, fun _ hh => hh⟩
  | reset =>
    simp only [Op.call, agenda_reset_, Option.isSome_some, if_true, Except.ok.injEq,
      Prod.mk.injEq] at h
    exact ⟨b, h.2.symm, rfl, rfl, fun hh => hh, fun _ hh => hh⟩
  | shrink_to_fit realloc =>
    simp only [Op.call, agenda_shrink_to_fit_, magic_guard_live harden b hlive,
      get_header_live harden b hlive, realloc_block] at h
    cases hre : realloc ((sizeof_Agenda_Header harden + b.da.size) % SIZE_T_MOD) with
    | none =>
      rw [hre] at h
      simp only [Except.ok.injEq, Prod.mk.injEq] at h
      exact ⟨b, h.2.symm, rfl, rfl, fun hh => hh, fun _ hh => hh⟩
    | some f =>
      rw [hre] at h
      simp only [Except.ok.injEq, Prod.mk.injEq] at h
      exact ⟨_, h.2.symm, rfl, rfl, fun _ => le_refl _, fun _ hh => hh⟩

/-- Every call of `Op` on a null handle returns `false` and leaves it null. -/
theorem call_null (harden : Bool) (fuel : Nat) (op : Op) :
    op.call harden fuel (some none) = .ok (false, some none) := by
  cases op <;> rfl

theorem run_null (harden : Bool) (fuel : Nat) :
    ∀ (ops : List Op) (rs : List Bool) (items1 : Option Agenda),
      run harden fuel (some none) ops = .ok (rs, items1) → items1 = some none := by
  intro ops
  induction ops with
  | nil =>
    intro rs items1 h
    simp only [run, Except.ok.injEq, Prod.mk.injEq] at h
    exact h.2.symm
  | cons op ops ih =>
    intro rs items1 h
    rw [run, call_null] at h
    simp only at h
    cases hr : run harden fuel (some none) ops with
    | error e => rw [hr] at h; cases h
    | ok v =>
      obtain ⟨rs1, it⟩ := v
      rw [hr] at h
      simp only [Except.ok.injEq, Prod.mk.injEq] at h
      rw [← h.2]
      exact ih rs1 it hr

/-- The invariants of `call_step` along a run that returns. -/
theorem run_invariants (harden : Bool) (fuel : Nat) :
    ∀ (ops : List Op) (b : Block) (rs : List Bool) (items1 : Option Agenda),
      Live harden b → run harden fuel (some (some b)) ops = .ok (rs, items1) →
      ∃ b1, items1 = some (some b1) ∧ b1.da.magic = b.da.magic ∧
        b1.da.item_size = b.da.item_size ∧
        (b.da.size ≤ b.da.capacity → b1.da.size ≤ b1.da.capacity) ∧
        (run_no_wrap harden fuel (some (some b)) ops → b.da.size % b.da.item_size = 0 →
          b1.da.size % b1.da.item_size = 0) := by
  intro ops
  induction ops with
  | nil =>
    intro b rs items1 _ h
    simp only [run, Except.ok.injEq, Prod.mk.injEq] at h
    exact ⟨b, h.2.symm, rfl, rfl, fun hh => hh, fun _ hh => hh⟩
  | cons op ops ih =>
    intro b rs items1 hlive h
    rw [run] at h
    cases hc : op.call harden fuel (some (some b)) with
    | error e => rw [hc] at h; cases h
    | ok v =>
      obtain ⟨r, it⟩ := v
      obtain ⟨b1, rfl, hmag1, his1, hcap1, hmod1⟩ := call_step harden fuel b op r it hlive hc
      rw [hc] at h
      simp only at h
      cases hr : run harden fuel (some (some b1)) ops with
      | error e => rw [hr] at h; cases h
      | ok w =>
        obtain ⟨rs1, it2⟩ := w
        rw [hr] at h
        simp only [Except.ok.injEq, Prod.mk.injEq] at h
        obtain ⟨b2, hb2, hmag2, his2, hcap2, hmod2⟩ :=
          ih b1 rs1 it2 (live_of_magic_eq harden b b1 hlive hmag1) hr
        refine ⟨b2, by rw [← h.2, hb2], by rw [hmag2, hmag1], by rw [his2, his1],
          fun hh => hcap2 (hcap1 hh), ?_⟩
        intro hnw hmod
        obtain ⟨hnw0, hnw1⟩ := hnw
        exact hmod2 (hnw1 r (some (some b1)) hc) (hmod1 (hnw0 b rfl) hmod)

/-- What a successful `agenda_init_` tells. -/
theorem init_some (harden : Bool) (malloc : Allocator) (s : Nat) (b0 : Block)
    (h : agenda_init_ harden malloc s = some b0) :
    s ≠ 0 ∧ Live harden b0 ∧ b0.da.item_size = s ∧ b0.da.size = 0 ∧
      b0.da.capacity = AGENDA_INITIAL_CAPACITY_IN_BYTES := by
  unfold agenda_init_ malloc_block at h
  by_cases hs : s = 0
  · rw [if_pos hs] at h; cases h
  · rw [if_neg hs] at h
    cases hm : malloc (sizeof_Agenda_Header harden + AGENDA_INITIAL_CAPACITY_IN_BYTES) with
    | none => rw [hm] at h; cases h
    | some f =>
      rw [hm] at h
      simp only [Option.some.injEq] at h
      subst h
      exact ⟨hs, init_live harden _ rfl, rfl, rfl, rfl⟩

/-- C12: in every state reached from `agenda_init_(s)` by calls of
`agenda_push_back_`, `agenda_push_back_array_`, `agenda_pop_back_`,
`agenda_reset_` and `agenda_shrink_to_fit_` that return, whatever the
allocators answer, the header has `capacity ≥ size` (for `s = 0` there is no
array to reach). -/
theorem capacity_holds_size (harden : Bool) (fuel : Nat) (malloc : Allocator) (s : Nat)
    (ops : List Op) (rs : List Bool) (b : Block)
    (hrun : run harden fuel (some (agenda_init_ harden malloc s)) ops
      = .ok (rs, some (some b))) :
    b.da.size ≤ b.da.capacity := by
  cases hinit : agenda_init_ harden malloc s with
  | none =>
    rw [hinit] at hrun
    have := run_null harden fuel ops rs _ hrun
    simp at this
  | some b0 =>
    rw [hinit] at hrun
    obtain ⟨_, hlive0, _, hsz0, _⟩ := init_some harden malloc s b0 hinit
    obtain ⟨b1, hb1, _, _, hcap, _⟩ := run_invariants harden fuel ops b0 rs _ hlive0 hrun
    simp only [Option.some.injEq] at hb1
    subst hb1
    exact hcap (by rw [hsz0]; exact Nat.zero_le _)

set_option maxRecDepth 8192 in
/-- A run that satisfies the hypotheses of `capacity_holds_size`: on an array of
four-byte items, a push, a push of 100 items, a removal, a reset, a push that
needs no `realloc` and a shrink. -/
theorem capacity_holds_size_witness :
    ∃ rs b,
      run true 64 (some (agenda_init_ true sample_allocator 4))
        [Op.push_back sample_allocator (sample_item 7),
         Op.push_back_array sample_allocator (sample_item 9) 100,
         Op.pop_back, Op.reset, Op.push_back failing_allocator (sample_item 5),
         Op.shrink_to_fit sample_allocator] = .ok (rs, some (some b)) ∧
      b.da.size ≤ b.da.capacity := by
  have hrun : ∃ rs b,
      run true 64 (some (agenda_init_ true sample_allocator 4))
        [Op.push_back sample_allocator (sample_item 7),
         Op.push_back_array sample_allocator (sample_item 9) 100,
         Op.pop_back, Op.reset, Op.push_back failing_allocator (sample_item 5),
         Op.shrink_to_fit sample_allocator] = .ok (rs, some (some b)) :=
    ⟨_, _, rfl⟩
  obtain ⟨rs, b, h⟩ := hrun
  exact ⟨rs, b, h, capacity_holds_size true 64 sample_allocator 4 _ rs b h⟩

/-- C13 (amended): in every state reached from `agenda_init_(s)` by calls of
`agenda_push_back_`, `agenda_push_back_array_`, `agenda_pop_back_`,
`agenda_reset_` and `agenda_shrink_to_fit_` that return, when the required size
`size + item_size * n` of every push fits a `size_t`, `size` is a multiple of
`item_size`. -/
theorem size_is_multiple_of_item_size (harden : Bool) (fuel : Nat) (malloc : Allocator)
    (s : Nat) (ops : List Op) (rs : List Bool) (b : Block)
    (hnw : run_no_wrap harden fuel (some (agenda_init_ harden malloc s)) ops)
    (hrun : run harden fuel (some (agenda_init_ harden malloc s)) ops
      = .ok (rs, some (some b))) :
    b.da.size % b.da.item_size = 0 := by
  cases hinit : agenda_init_ harden malloc s with
  | none =>
    rw [hinit] at hrun
    have := run_null harden fuel ops rs _ hrun
    simp at this
  | some b0 =>
    rw [hinit] at hrun hnw
    obtain ⟨_, hlive0, _, hsz0, _⟩ := init_some harden malloc s b0 hinit
    obtain ⟨b1, hb1, _, _, _, hmod⟩ := run_invariants harden fuel ops b0 rs _ hlive0 hrun
    simp only [Option.some.injEq] at hb1
    subst hb1
    exact hmod hnw (by rw [hsz0]; exact Nat.zero_mod _)

set_option maxRecDepth 8192 in
/-- A run that satisfies the hypotheses of `size_is_multiple_of_item_size`: a
push of one four-byte item and a removal. -/
theorem size_is_multiple_of_item_size_witness :
    ∃ rs b,
      run_no_wrap true 64 (some (agenda_init_ true sample_allocator 4))
        [Op.push_back sample_allocator (sample_item 7), Op.pop_back] ∧
      run true 64 (some (agenda_init_ true sample_allocator 4))
        [Op.push_back sample_allocator (sample_item 7), Op.pop_back]
        = .ok (rs, some (some b)) ∧
      b.da.size % b.da.item_size = 0 := by
  have hrun : ∃ rs b,
      run true 64 (some (agenda_init_ true sample_allocator 4))
        [Op.push_back sample_allocator (sample_item 7), Op.pop_back]
        = .ok (rs, some (some b)) := ⟨_, _, rfl⟩
  have hnw : run_no_wrap true 64 (some (agenda_init_ true sample_allocator 4))
      [Op.push_back sample_allocator (sample_item 7), Op.pop_back] := by
    refine ⟨?_, ?_⟩
    · intro b hb
      have hb0 : some (agenda_init_ true sample_allocator 4) = some (some b) := hb
      obtain ⟨_, _, his, hsz, _⟩ := init_some true sample_allocator 4 b
        (Option.some.inj hb0)
      simp only [Op.no_wrap, his, hsz]
      norm_num [SIZE_T_MOD]
    · intro r items1 _
      exact ⟨fun _ _ => trivial, fun _ _ _ => trivial⟩
  obtain ⟨rs, b, h⟩ := hrun
  exact ⟨rs, b, hnw, h,
    size_is_multiple_of_item_size true 64 sample_allocator 4 _ rs b hnw h⟩

set_option maxRecDepth 8192 in
/-- C13 as stated fails: on an array of three-byte items the call
`agenda_push_back_array_(items, arr, 6148914691236517206)` computes
`3 * 6148914691236517206` modulo `2 ^ 64`, which is `2`, copies two bytes, and
returns `true` with `size == 2`, not a multiple of `3`. -/
theorem wrapped_array_length_breaks_multiple :
    ∃ rs b,
      run true 64 (some (agenda_init_ true sample_allocator 3))
        [Op.push_back_array sample_allocator (sample_item 7) 6148914691236517206]
        = .ok (rs, some (some b)) ∧
      b.da.item_size = 3 ∧ b.da.size = 2 ∧ b.da.size % b.da.item_size ≠ 0 := by
  refine ⟨_, _, rfl, rfl, rfl, ?_⟩
  decide

/-! ## C14 : the item size is fixed -/

/-- On a block that is not live the guard does not let a call go on. -/
theorem magic_guard_not_live (harden : Bool) (b : Block) (h : ¬ Live harden b) :
    agenda_get_header_ harden (some (some b)) = none ∧
    magic_guard harden (some (some b)) = .error .null_deref := by
  obtain ⟨hh, hm⟩ := not_live harden b h
  subst hh
  exact magic_guard_corrupted b hm

/-- One call of `Op` that returns, on a live block or not, leaves `item_size`. -/
theorem call_keeps_item_size (harden : Bool) (fuel : Nat) (b : Block) (op : Op) (r : Bool)
    (items1 : Option Agenda) (h : op.call harden fuel (some (some b)) = .ok (r, items1)) :
    ∃ b1, items1 = some (some b1) ∧ b1.da.item_size = b.da.item_size := by
  by_cases hlive : Live harden b
  · obtain ⟨b1, hb1, _, his, _, _⟩ := call_step harden fuel b op r items1 hlive h
    exact ⟨b1, hb1, his⟩
  · obtain ⟨_, hg⟩ := magic_guard_not_live harden b hlive
    cases op with
    | push_back realloc item =>
      simp only [Op.call, agenda_push_back_, hg] at h
      cases h
    | push_back_array realloc arr n =>
      simp only [Op.call, agenda_push_back_array_, hg] at h
      split at h
      · simp only [Except.ok.injEq, Prod.mk.injEq] at h
        exact ⟨b, h.2.symm, rfl⟩
      · cases h
    | pop_back =>
      simp only [Op.call, agenda_pop_back_, hg] at h
      cases h
    | reset =>
      simp only [Op.call, agenda_reset_, Option.isSome_some, if_true, Except.ok.injEq,
        Prod.mk.injEq] at h
      exact ⟨b, h.2.symm, rfl⟩
    | shrink_to_fit realloc =>
      simp only [Op.call, agenda_shrink_to_fit_, hg] at h
      cases h

/-- C14: every call of `agenda_push_back_`, `agenda_push_back_array_`,
`agenda_pop_back_`, `agenda_reset_`, `agenda_shrink_to_fit_` and
`agenda__realloc_many` that returns, with `true` or with `false`, leaves a
block whose `item_size` is the one before the call; `agenda_get_header_` hands
back the header as it is, and like `agenda_items_count_` it writes nothing. -/
theorem item_size_is_fixed (harden : Bool) (fuel : Nat) (b : Block) :
    (∀ (op : Op) (r : Bool) (items1 : Option Agenda),
      op.call harden fuel (some (some b)) = .ok (r, items1) →
      ∃ b1, items1 = some (some b1) ∧ b1.da.item_size = b.da.item_size) ∧
    (∀ (realloc : Allocator) (n : Nat) (r : Bool) (items1 : Option Agenda),
      agenda__realloc_many harden fuel realloc (some (some b)) n = .ok (r, items1) →
      ∃ b1, items1 = some (some b1) ∧ b1.da.item_size = b.da.item_size) ∧
    (∀ (da : Block), agenda_get_header_ harden (some (some b)) = some da → da = b) := by
  refine ⟨fun op r items1 h => call_keeps_item_size harden fuel b op r items1 h, ?_, ?_⟩
  · intro realloc n r items1 h
    by_cases hlive : Live harden b
    · obtain ⟨b1, hb1, _, his, _, _⟩ := realloc_many_ok harden fuel realloc b n r items1 hlive h
      exact ⟨b1, hb1, his⟩
    · obtain ⟨hh, _⟩ := magic_guard_not_live harden b hlive
      simp only [agenda__realloc_many, hh] at h
      cases h
  · intro da h
    simp only [agenda_get_header_] at h
    split at h
    · cases h
    · simp only [Option.some.injEq] at h; exact h.symm

/-- Calls on `sample_block` that return, as `item_size_is_fixed` wants them: a
push that needs no `realloc`, a removal, and a growth step whose `realloc`
fails. -/
theorem item_size_is_fixed_witness :
    (∃ items1, (Op.push_back failing_allocator (sample_item 7)).call true 64
        (some (some sample_block)) = .ok (true, items1) ∧
      ∃ b1, items1 = some (some b1) ∧ b1.da.item_size = sample_block.da.item_size) ∧
    (∃ items1, Op.pop_back.call true 64 (some (some sample_block)) = .ok (true, items1) ∧
      ∃ b1, items1 = some (some b1) ∧ b1.da.item_size = sample_block.da.item_size) ∧
    (∃ items1, agenda__realloc_many true 64 failing_allocator (some (some sample_block)) 3
        = .ok (false, items1) ∧
      ∃ b1, items1 = some (some b1) ∧ b1.da.item_size = sample_block.da.item_size) :=
  ⟨⟨_, rfl, (item_size_is_fixed true 64 sample_block).1
      (Op.push_back failing_allocator (sample_item 7)) true _ rfl⟩,
   ⟨_, rfl, (item_size_is_fixed true 64 sample_block).1 Op.pop_back true _ rfl⟩,
   ⟨_, rfl, (item_size_is_fixed true 64 sample_block).2.1 failing_allocator 3 false _ rfl⟩⟩

/-! ## C19 : the division of the count -/

/-- One call of `Call` that returns on a live block leaves a null handle or a
live block with the same tag and `item_size`. -/
theorem exec_step (harden : Bool) (fuel : Nat) (b : Block) (c : Call)
    (items1 : Option Agenda) (hlive : Live harden b)
    (h : c.exec harden fuel (some (some b)) = .ok items1) :
    items1 = some none ∨
      ∃ b1, items1 = some (some b1) ∧ b1.da.magic = b.da.magic ∧
        b1.da.item_size = b.da.item_size := by
  cases c with
  | op o =>
    simp only [Call.exec] at h
    cases hc : o.call harden fuel (some (some b)) with
    | error e => rw [hc] at h; cases h
    | ok v =>
      obtain ⟨r, it⟩ := v
      rw [hc] at h
      simp only [Except.ok.injEq] at h
      subst h
      obtain ⟨b1, hb1, hmag, his, _, _⟩ := call_step harden fuel b o r _ hlive hc
      exact Or.inr ⟨b1, hb1, hmag, his⟩
  | deinit =>
    simp only [Call.exec, agenda_deinit_, magic_guard_live harden b hlive,
      Except.ok.injEq] at h
    exact Or.inl h.symm
  | items_count =>
    simp only [Call.exec] at h
    split at h
    · cases h
    · simp only [Except.ok.injEq] at h
      exact Or.inr ⟨b, h.symm, rfl, rfl⟩
  | get_header =>
    simp only [Call.exec, Except.ok.injEq] at h
    exact Or.inr ⟨b, h.symm, rfl, rfl⟩
  | realloc_many realloc n =>
    simp only [Call.exec] at h
    cases hc : agenda__realloc_many harden fuel realloc (some (some b)) n with
    | error e => rw [hc] at h; cases h
    | ok v =>
      obtain ⟨r, it⟩ := v
      rw [hc] at h
      simp only [Except.ok.injEq] at h
      subst h
      obtain ⟨b1, hb1, hmag, his, _, _⟩ := realloc_many_ok harden fuel realloc b n r _ hlive hc
      exact Or.inr ⟨b1, hb1, hmag, his⟩

/-- A call of `Call` that returns on a null handle leaves it null. -/
theorem exec_null (harden : Bool) (fuel : Nat) (c : Call) (items1 : Option Agenda)
    (h : c.exec harden fuel (some none) = .ok items1) : items1 = some none := by
  cases c with
  | op o =>
    simp only [Call.exec, call_null, Except.ok.injEq] at h
    exact h.symm
  | deinit =>
    simp only [Call.exec, agenda_deinit_, Except.ok.injEq] at h
    exact h.symm
  | items_count =>
    simp only [Call.exec, agenda_items_count_, Except.ok.injEq] at h
    exact h.symm
  | get_header =>
    simp only [Call.exec, Except.ok.injEq] at h
    exact h.symm
  | realloc_many realloc n =>
    simp only [Call.exec, agenda__realloc_many, agenda_get_header_] at h
    cases h

theorem exec_all_null (harden : Bool) (fuel : Nat) :
    ∀ (cs : List Call) (items1 : Option Agenda),
      exec_all harden fuel (some none) cs = .ok items1 → items1 = some none := by
  intro cs
  induction cs with
  | nil =>
    intro items1 h
    simp only [exec_all, Except.ok.injEq] at h
    exact h.symm
  | cons c cs ih =>
    intro items1 h
    rw [exec_all] at h
    cases hc : c.exec harden fuel (some none) with
    | error e => rw [hc] at h; cases h
    | ok it =>
      rw [hc] at h
      simp only at h
      rw [exec_null harden fuel c it hc] at h
      exact ih items1 h

theorem exec_all_invariants (harden : Bool) (fuel : Nat) :
    ∀ (cs : List Call) (b : Block) (items1 : Option Agenda), Live harden b →
      exec_all harden fuel (some (some b)) cs = .ok items1 →
      items1 = some none ∨
        ∃ b1, items1 = some (some b1) ∧ b1.da.magic = b.da.magic ∧
          b1.da.item_size = b.da.item_size := by
  intro cs
  induction cs with
  | nil =>
    intro b items1 _ h
    simp only [exec_all, Except.ok.injEq] at h
    exact Or.inr ⟨b, h.symm, rfl, rfl⟩
  | cons c cs ih =>
    intro b items1 hlive h
    rw [exec_all] at h
    cases hc : c.exec harden fuel (some (some b)) with
    | error e => rw [hc] at h; cases h
    | ok it =>
      rw [hc] at h
      simp only at h
      rcases exec_step harden fuel b c it hlive hc with rfl | ⟨b1, rfl, hmag1, his1⟩
      · exact Or.inl (exec_all_null harden fuel cs items1 h)
      · rcases ih b1 items1 (live_of_magic_eq harden b b1 hlive hmag1) h with
          h0 | ⟨b2, hb2, hmag2, his2⟩
        · exact Or.inl h0
        · exact Or.inr ⟨b2, hb2, by rw [hmag2, hmag1], by rw [his2, his1]⟩

/-- C19: in every live state reached from a successful `agenda_init_` by calls
of the library that return (the five calls of `Op`, `agenda_deinit_`,
`agenda_items_count_`, `agenda_get_header_`, `agenda__realloc_many`),
`item_size > 0`: `agenda_items_count_` divides by a non-zero `item_size` and
returns `size / item_size`. -/
theorem items_count_never_divides_by_zero (harden : Bool) (fuel : Nat) (malloc : Allocator)
    (s : Nat) (cs : List Call) (b0 b : Block)
    (hinit : agenda_init_ harden malloc s = some b0)
    (hrun : exec_all harden fuel (some (some b0)) cs = .ok (some (some b))) :
    0 < b.da.item_size ∧
    agenda_items_count_ harden (some (some b)) = .ok (b.da.size / b.da.item_size) := by
  obtain ⟨hs, hlive0, his0, _, _⟩ := init_some harden malloc s b0 hinit
  rcases exec_all_invariants harden fuel cs b0 _ hlive0 hrun with h0 | ⟨b1, hb1, hmag, his⟩
  · simp at h0
  · simp only [Option.some.injEq] at hb1
    subst hb1
    have hpos : 0 < b.da.item_size := by rw [his, his0]; omega
    exact ⟨hpos, items_count_live harden b (live_of_magic_eq harden b0 b hlive0 hmag)
      (by omega)⟩

set_option maxRecDepth 8192 in
/-- A run that satisfies the hypotheses of `items_count_never_divides_by_zero`: on
an array of four-byte items, a push, the two queries, a growth step whose
`realloc` fails, a removal and a shrink. -/
theorem items_count_never_divides_by_zero_witness :
    ∃ b0 b,
      agenda_init_ true sample_allocator 4 = some b0 ∧
      exec_all true 64 (some (some b0))
        [Call.op (Op.push_back sample_allocator (sample_item 7)), Call.items_count,
         Call.get_header, Call.realloc_many failing_allocator 100, Call.op Op.pop_back,
         Call.op (Op.shrink_to_fit sample_allocator)] = .ok (some (some b)) ∧
      0 < b.da.item_size ∧
      agenda_items_count_ true (some (some b)) = .ok (b.da.size / b.da.item_size) := by
  have hrun : ∃ b0 b,
      agenda_init_ true sample_allocator 4 = some b0 ∧
      exec_all true 64 (some (some b0))
        [Call.op (Op.push_back sample_allocator (sample_item 7)), Call.items_count,
         Call.get_header, Call.realloc_many failing_allocator 100, Call.op Op.pop_back,
         Call.op (Op.shrink_to_fit sample_allocator)] = .ok (some (some b)) :=
    ⟨_, _, rfl, rfl⟩
  obtain ⟨b0, b, h0, h⟩ := hrun
  exact ⟨b0, b, h0, h,
    items_count_never_divides_by_zero true 64 sample_allocator 4 _ b0 b h0 h⟩


end AgendaH
